import Mathlib

/-!
Packed symmetric / triangular matrices of eesen (gpucompute) and the
train-ctc-parallel driver.

Shallow embedding of

* `src/gpucompute/cuda-sp-matrix.h`  (`CuSpMatrix::operator()`, `FrobeniusNorm`, `TraceSpSp`)
* `src/gpucompute/cuda-tp-matrix.cc` (`CuTpMatrix::Cholesky`, `Invert`, `CopyFromMat`)
* `src/netbin/train-ctc-parallel.cc` (option defaults, averaging trigger, batch
  assembly and the padded row copy)

Conventions.  `MatrixIndexT` is a 32-bit signed integer and
`UnsignedMatrixIndexT` its unsigned counterpart; both are embedded in `Int`
with explicit reduction modulo `2^32`.  Matrix entries live in an arbitrary
commutative ring / field `K` (exact arithmetic), so every definition is
executable at `K = ℤ` or `K = ℚ`; the square root is a parameter.

The three source files call routines that are not among them (the device
kernels, the cuBLAS wrapper, the dense `CuMatrix` operations and the host
`TpMatrix` / `SpMatrix` routines).  Each of these is a definition whose
comment begins "Modelled from the spec"; everything else follows the source
text quoted in its comment.  `enabled` stands for
`HAVE_CUDA == 1 && CuDevice::Instantiate().Enabled()`.  For the parity of the
two paths the routines are parameters (`Backends`), constrained only by what
the specification says of each of them (`Backends.MeetsSpec`).
-/

namespace eesen

/-! ## Machine integers -/

/-- The value of `static_cast<UnsignedMatrixIndexT>(x)` for a 32-bit `x`. -/
def toUnsigned (x : Int) : Int := x % 2 ^ 32

/-- The `MatrixIndexT` (two's complement, 32 bit) that an integer result
denotes after wrap-around. -/
def wrapInt32 (x : Int) : Int := (x + 2 ^ 31) % 2 ^ 32 - 2 ^ 31

/-- Predicate: `x` is representable as a `MatrixIndexT`. -/
def IsInt32 (x : Int) : Prop := -(2 ^ 31) ≤ x ∧ x < 2 ^ 31

instance (x : Int) : Decidable (IsInt32 x) := by
  unfold IsInt32; infer_instance

/-! ## Failures

Every failure of the engine is a failed `KALDI_ASSERT`; the constructors
name the assertion that failed, following the error taxonomy. -/

/-- The two assertion failures that the embedded operations can raise. -/
inductive KaldiError where
  | IndexOutOfRange
  | DimensionMismatch
  deriving DecidableEq

/-! ## Packed storage -/

/-- Class `CuPackedMatrix<Real>`: the dimension `num_rows_` and the buffer `data_`
holding the lower triangle row by row. -/
structure CuPackedMatrix (K : Type) where
  num_rows_ : Nat
  data_ : List K
  deriving DecidableEq

/-- Class `CuSpMatrix<Real>` is a `CuPackedMatrix<Real>` read as a symmetric matrix. -/
abbrev CuSpMatrix (K : Type) := CuPackedMatrix K

/-- Class `CuTpMatrix<Real>` is a `CuPackedMatrix<Real>` read as a lower-triangular matrix. -/
abbrev CuTpMatrix (K : Type) := CuPackedMatrix K

/-- Handle `CuValue<Real>(data_ + offset)`: a handle on one stored entry, given by its
offset from `data_`. -/
structure CuValue where
  offset : Int
  deriving DecidableEq

/-- Conversion of a `CuValue<Real>` to `Real`: a read of the addressed entry
(`none` when the address is outside the buffer). -/
def CuValue.toReal {K : Type} (data : List K) (v : CuValue) : Option K :=
  if 0 ≤ v.offset then data.get? v.offset.toNat else none

/-- The body shared by both overloads of `CuSpMatrix::operator()`:
```
if (static_cast<UnsignedMatrixIndexT>(c) > static_cast<UnsignedMatrixIndexT>(r))
  std::swap(c, r);
KALDI_ASSERT(static_cast<UnsignedMatrixIndexT>(r) <
             static_cast<UnsignedMatrixIndexT>(this->num_rows_));
return CuValue<Real>(this->data_ + (r * (r+1)) / 2 + c);
```
`r * (r+1)` and `r+1` are `MatrixIndexT` expressions (wrapped to 32 bits), the
division truncates toward zero, and the two additions to `data_` are pointer
arithmetic (not wrapped). -/
def CuSpMatrix.elementOffset (num_rows r c : Int) : Except KaldiError Int :=
  let swap : Bool := decide (toUnsigned c > toUnsigned r)
  let r1 := if swap then c else r
  let c1 := if swap then r else c
  if toUnsigned r1 < toUnsigned num_rows then
    .ok (Int.tdiv (wrapInt32 (r1 * wrapInt32 (r1 + 1))) 2 + c1)
  else
    .error KaldiError.IndexOutOfRange

/-- The read/write overload
`CuValue<Real> CuSpMatrix::operator() (MatrixIndexT r, MatrixIndexT c)`. -/
def CuSpMatrix.operatorCall {K : Type} (A : CuSpMatrix K) (r c : Int) :
    Except KaldiError CuValue :=
  (CuSpMatrix.elementOffset A.num_rows_ r c).map CuValue.mk

/-- The read-only overload
`Real CuSpMatrix::operator() (MatrixIndexT r, MatrixIndexT c) const`:
the same address, then converted to `Real`. -/
def CuSpMatrix.operatorCallConst {K : Type} (A : CuSpMatrix K) (r c : Int) :
    Except KaldiError (Option K) :=
  (CuSpMatrix.elementOffset A.num_rows_ r c).map
    (fun off => CuValue.toReal A.data_ (CuValue.mk off))

/-- A 3 x 3 packed symmetric matrix used to exercise the accessor. -/
def exampleSp : CuSpMatrix Int := ⟨3, [1, 2, 3, 4, 5, 6]⟩

/-- A packed matrix of dimension 46342, the first dimension that admits an
index at which the 32-bit product `r * (r+1)` of the accessor overflows
(at `r = 46341`). -/
def largeSp : CuSpMatrix Int := ⟨46342, List.replicate (46342 * 46343 / 2) 0⟩

/-! ## Symmetric packed matrices: trace product and Frobenius norm -/

/-- The stored entry `(r, c)`, `c ≤ r`, of a packed matrix: `data_[r (r+1) / 2 + c]`
(`0` when the position is outside the buffer). -/
def CuPackedMatrix.stored {K : Type} [Zero K] (A : CuPackedMatrix K) (r c : Nat) : K :=
  A.data_.getD (r * (r + 1) / 2 + c) 0

/-- The logical entry `(i, j)` of a symmetric packed matrix: canonical swap,
then the stored entry. -/
def CuSpMatrix.entry {K : Type} [Zero K] (A : CuSpMatrix K) (i j : Nat) : K :=
  A.stored (max i j) (min i j)

/-- The full `n x n` symmetric matrix that a packed symmetric matrix represents. -/
def CuSpMatrix.toFull {K : Type} [Zero K] (A : CuSpMatrix K) (n : Nat) :
    Matrix (Fin n) (Fin n) K :=
  fun i j => A.entry i j

/-- Modelled from the spec: `TraceSpSp` is only declared in
`cuda-sp-matrix.h`; its body is not part of the sources.  The specification
gives it as `sum over r>c of 2·A[r,c]·B[r,c] + sum over r of A[r,r]·B[r,r]`
over the stored entries. -/
def TraceSpSp {K : Type} [CommRing K] (A B : CuSpMatrix K) : K :=
  (∑ r in Finset.range A.num_rows_, ∑ c in Finset.range r,
      2 * A.stored r c * B.stored r c)
    + ∑ r in Finset.range A.num_rows_, A.stored r r * B.stored r r

/-- Method `Real FrobeniusNorm() const { return sqrt(TraceSpSp(*this, *this)); }`,
with the square-root function of the scalar type as a parameter. -/
def CuSpMatrix.FrobeniusNorm {K : Type} [CommRing K] (sqrt : K → K) (A : CuSpMatrix K) : K :=
  sqrt (TraceSpSp A A)

/-- A second 3 x 3 packed symmetric matrix. -/
def exampleSp2 : CuSpMatrix Int := ⟨3, [2, 0, 1, -1, 3, 4]⟩

/-! ## Dense matrices and triangle extraction -/

/-- The enumeration `MatrixTransposeType`. -/
inductive MatrixTransposeType where
  | kTrans
  | kNoTrans
  deriving DecidableEq

/-- Class `CuMatrixBase<Real>`: a dense matrix with `num_rows_` rows and `num_cols_`
columns; `data_ r c` is the entry in row `r`, column `c`. -/
structure CuMatrixBase (K : Type) where
  num_rows_ : Nat
  num_cols_ : Nat
  data_ : Nat → Nat → K

/-- The packed buffer of dimension `n` whose stored entry `(r, c)`, `c ≤ r < n`,
is `f r c`: row 0 (one entry), then row 1 (two entries), and so on, so that
entry `(r, c)` sits at the position `r (r+1) / 2 + c` that `operator()`
addresses. -/
def packLower {K : Type} (f : Nat → Nat → K) : Nat → List K
  | 0 => []
  | n + 1 => packLower f n ++ (List.range (n + 1)).map (f n)

/-- Modelled from the spec: the device kernel `cuda_take_lower` (declared in
`cuda-kernels.h`, not part of the sources) "reads the dense source directly and
writes packed storage", extracting the lower triangle.  The result is the new
content of the packed buffer. -/
def cuda_take_lower {K : Type} (M : CuMatrixBase K) : List K :=
  packLower (fun r c => M.data_ r c) M.num_rows_

/-- Modelled from the spec: the device kernel `cuda_take_upper` (declared in
`cuda-kernels.h`, not part of the sources), extracting the upper triangle of the
dense source into packed storage. -/
def cuda_take_upper {K : Type} (M : CuMatrixBase K) : List K :=
  packLower (fun r c => M.data_ c r) M.num_rows_

/-- Modelled from the spec: the host routine `TpMatrix::CopyFromMat`
(cpucompute, not part of the sources) "performs the equivalent extraction in the
host's own representation.  Precondition: source dimension equals this matrix's
dimension, else DimensionMismatch; `n = 0` is a no-op." -/
def TpMatrix.CopyFromMat {K : Type} (T : CuTpMatrix K) (M : CuMatrixBase K)
    (Trans : MatrixTransposeType) : Except KaldiError (CuTpMatrix K) :=
  if ¬ (M.num_rows_ = T.num_rows_ ∧ M.num_cols_ = T.num_rows_) then
    .error KaldiError.DimensionMismatch
  else if T.num_rows_ = 0 then
    .ok T
  else
    match Trans with
    | MatrixTransposeType.kNoTrans =>
      .ok { T with data_ := packLower (fun r c => M.data_ r c) T.num_rows_ }
    | MatrixTransposeType.kTrans =>
      .ok { T with data_ := packLower (fun r c => M.data_ c r) T.num_rows_ }

/-- Method `CuTpMatrix<Real>::CopyFromMat(const CuMatrixBase<Real> &M, MatrixTransposeType Trans)`.
`enabled` is `HAVE_CUDA == 1 && CuDevice::Instantiate().Enabled()`.
```
if (enabled) {
  MatrixIndexT num_rows = this->num_rows_;
  KALDI_ASSERT(num_rows == M.NumRows() && this->num_rows_ == M.NumCols());
  if (num_rows == 0) return;
  if (Trans == kNoTrans) cuda_take_lower(.., M.Data(), this->data_, M.Dim());
  else                   cuda_take_upper(.., M.Data(), this->data_, M.Dim());
} else {
  Mat().CopyFromMat(M.Mat(), Trans);
}
``` -/
def CuTpMatrix.CopyFromMat {K : Type} (enabled : Bool) (T : CuTpMatrix K)
    (M : CuMatrixBase K) (Trans : MatrixTransposeType) : Except KaldiError (CuTpMatrix K) :=
  if enabled then
    let num_rows := T.num_rows_
    if ¬ (num_rows = M.num_rows_ ∧ T.num_rows_ = M.num_cols_) then
      .error KaldiError.DimensionMismatch
    else if num_rows = 0 then
      .ok T
    else if Trans = MatrixTransposeType.kNoTrans then
      .ok { T with data_ := cuda_take_lower M }
    else
      .ok { T with data_ := cuda_take_upper M }
  else
    TpMatrix.CopyFromMat T M Trans

/-- The constructor `CuTpMatrix(const CuMatrixBase<Real> &orig, MatrixTransposeType trans)`:
```
CuPackedMatrix<Real>(orig.NumRows(), kUndefined)
KALDI_ASSERT(orig.NumRows() == orig.NumCols());
this->CopyFromMat(orig, trans);
```
`undefinedData` is the content of the freshly allocated (`kUndefined`) buffer. -/
def CuTpMatrix.ofMat {K : Type} (enabled : Bool) (undefinedData : List K)
    (orig : CuMatrixBase K) (trans : MatrixTransposeType) : Except KaldiError (CuTpMatrix K) :=
  if ¬ (orig.num_rows_ = orig.num_cols_) then
    .error KaldiError.DimensionMismatch
  else
    CuTpMatrix.CopyFromMat enabled ⟨orig.num_rows_, undefinedData⟩ orig trans

/-- The entry of the dense source that position `(r, c)`, `c ≤ r`, of the
selected triangle refers to: `M(r, c)` for `kNoTrans` (lower triangle), `M(c, r)`
for `kTrans` (upper triangle). -/
def CuMatrixBase.triangleEntry {K : Type} (M : CuMatrixBase K) (Trans : MatrixTransposeType)
    (r c : Nat) : K :=
  match Trans with
  | MatrixTransposeType.kNoTrans => M.data_ r c
  | MatrixTransposeType.kTrans => M.data_ c r

/-! ## Triangular inversion -/

/-- Constructor `CuMatrix<Real>(rows, cols)` with the default `kSetZero`. -/
def CuMatrix.zero {K : Type} [Zero K] (rows cols : Nat) : CuMatrixBase K :=
  ⟨rows, cols, fun _ _ => 0⟩

/-- Modelled from the spec: the device kernel `cuda_set_diag` (declared in
`cuda-kernels.h`, not part of the sources); applied to a zero matrix with
`alpha = 1` it "builds a dense identity staging buffer": every diagonal entry
is set to `alpha`. -/
def cuda_set_diag {K : Type} (M : CuMatrixBase K) (alpha : K) : CuMatrixBase K :=
  { M with data_ := fun r c => if r = c then alpha else M.data_ r c }

/-- Modelled from the spec: `CuMatrixBase::CopyFromTp` (cuda-matrix, not part of
the sources) makes "an expanded dense copy of self": the lower triangle holds
the stored entries and the opposite triangle is zero. -/
def CuMatrixBase.CopyFromTp {K : Type} [Zero K] (M : CuMatrixBase K) (T : CuTpMatrix K) :
    CuMatrixBase K :=
  { M with data_ := fun r c => if c ≤ r then T.stored r c else 0 }

/-- Modelled from the spec: the substitution that the triangular-solve routines
(`cublas_trsm` and the host `TpMatrix::Invert`, neither part of the sources)
perform, "forward/back substitution against an identity matrix".  For a
lower-triangular system `a x = b` it is forward substitution: the list of the
first `i` unknowns, each computed from the previous ones as
`x_i = (b_i - sum over k < i of a(i,k) x_k) / a(i,i)`. -/
def forwardSubst {K : Type} [Field K] (a : Nat → Nat → K) (b : Nat → K) : Nat → List K
  | 0 => []
  | i + 1 =>
    let xs := forwardSubst a b i
    xs ++ [(b i - ∑ k in Finset.range i, a i k * xs.getD k 0) / a i i]

/-- Modelled from the spec: the `i`-th unknown of the forward substitution
performed by the triangular-solve routines (not part of the sources). -/
def forwardSol {K : Type} [Field K] (a : Nat → Nat → K) (b : Nat → K) (i : Nat) : K :=
  (forwardSubst a b (i + 1)).getD i 0

/-- Modelled from the spec: `cublas_trsm` (cublas-wrappers, not part of the
sources), the "device triangular-solve primitive": it overwrites the `m x n`
right-hand side `B` with the solution `X` of the lower-triangular system
`A X = alpha B`, column by column, by forward substitution. -/
def cublas_trsm {K : Type} [Field K] (m n : Nat) (alpha : K) (A B : CuMatrixBase K) :
    CuMatrixBase K :=
  { B with
    data_ := fun i j =>
      if i < m ∧ j < n then forwardSol A.data_ (fun r => alpha * B.data_ r j) i
      else B.data_ i j }

/-- Modelled from the spec: the host routine `TpMatrix::Invert` (cpucompute, not
part of the sources) "performs in-place triangular inversion directly", that is
"via forward/back substitution against an identity matrix", on the packed
entries; "degenerate case `n = 0` is a no-op success". -/
def TpMatrix.Invert {K : Type} [Field K] (T : CuTpMatrix K) : CuTpMatrix K :=
  if T.num_rows_ = 0 then T
  else
    { T with
      data_ := packLower
        (fun r c => forwardSol (fun i k => T.stored i k) (fun i => if i = c then 1 else 0) r)
        T.num_rows_ }

/-- Method `CuTpMatrix<Real>::Invert()`.
`enabled` is `HAVE_CUDA == 1 && CuDevice::Instantiate().Enabled()`.
```
if (enabled) {
  if (this->num_rows_ == 0) return;
  CuMatrix<Real> tmp(this->NumRows(), this->NumRows());
  int dim = this->NumRows();
  Real alpha = 1.0;
  cuda_set_diag(.., tmp.Data(), alpha, tmp.Dim());
  CuMatrix<Real> tmp2(dim, dim);
  tmp2.CopyFromTp(*this);
  cublas_trsm(dim, dim, alpha, tmp2.Data(), .., tmp.Data(), ..);
  this->CopyFromMat(tmp, kNoTrans);
} else {
  Mat().Invert();
}
``` -/
def CuTpMatrix.Invert {K : Type} [Field K] (enabled : Bool) (T : CuTpMatrix K) :
    Except KaldiError (CuTpMatrix K) :=
  if enabled then
    if T.num_rows_ = 0 then
      .ok T
    else
      let tmp : CuMatrixBase K := CuMatrix.zero T.num_rows_ T.num_rows_
      let dim := T.num_rows_
      let alpha : K := 1
      let tmp := cuda_set_diag tmp alpha
      let tmp2 : CuMatrixBase K := CuMatrix.zero dim dim
      let tmp2 := tmp2.CopyFromTp T
      let tmp := cublas_trsm dim dim alpha tmp2 tmp
      CuTpMatrix.CopyFromMat true T tmp MatrixTransposeType.kNoTrans
  else
    .ok (TpMatrix.Invert T)

/-- The `n x n` lower-triangular matrix that a packed triangular matrix
represents: stored entries in the lower triangle, zero above the diagonal. -/
def CuTpMatrix.toLower {K : Type} [Zero K] (T : CuTpMatrix K) (n : Nat) :
    Matrix (Fin n) (Fin n) K :=
  fun i j => if (j : Nat) ≤ (i : Nat) then T.stored i j else 0

/-! ## Cholesky factorisation -/

/-- Modelled from the spec: the Cholesky kernels (`CuMatrixBase::Cholesky`,
`TpMatrix::Cholesky`) are not part of the sources, and the spec names the
operation (a lower-triangular `L` with `L·L^T = source`) without an algorithm;
the textbook row-by-row algorithm is taken.  This is row `j` of the factor,
written into the packed buffer: `buf0` holds the rows above; after step `k` the
first `k` entries of row `j` are appended,
`L(j,k) = (a(j,k) - sum over m < k of L(j,m) L(k,m)) / L(k,k)`. -/
def choleskyRow {K : Type} [Field K] (a : Nat → Nat → K) (j : Nat) (buf0 : List K) :
    Nat → List K
  | 0 => buf0
  | k + 1 =>
    let buf := choleskyRow a j buf0 k
    buf ++ [(a j k - ∑ m in Finset.range k,
              buf.getD (j * (j + 1) / 2 + m) 0 * buf.getD (k * (k + 1) / 2 + m) 0)
            / buf.getD (k * (k + 1) / 2 + k) 0]

/-- Modelled from the spec: the Cholesky factorisation of the absent kernels
(textbook row-by-row algorithm, see `choleskyRow`).  The packed buffer of the
first `j` rows of the factor of `a`; each row ends with its diagonal entry
`L(j,j) = sqrt (a(j,j) - sum over m < j of L(j,m)^2)`. -/
def choleskyBuf {K : Type} [Field K] (sqrt : K → K) (a : Nat → Nat → K) : Nat → List K
  | 0 => []
  | j + 1 =>
    let buf := choleskyRow a j (choleskyBuf sqrt a j) j
    buf ++ [sqrt (a j j - ∑ m in Finset.range j, buf.getD (j * (j + 1) / 2 + m) 0 ^ 2)]

/-- Modelled from the spec: the entry `(r, c)`, `c ≤ r`, of the Cholesky factor
of `a` computed by the absent kernels (see `choleskyBuf`). -/
def choleskyEntry {K : Type} [Field K] (sqrt : K → K) (a : Nat → Nat → K) (r c : Nat) : K :=
  (choleskyBuf sqrt a (r + 1)).getD (r * (r + 1) / 2 + c) 0

/-- Modelled from the spec: the Cholesky factor of the absent kernels as a full
lower-triangular array, zero above the diagonal. -/
def choleskyLower {K : Type} [Field K] (sqrt : K → K) (a : Nat → Nat → K) (r c : Nat) : K :=
  if c ≤ r then choleskyEntry sqrt a r c else 0

/-- Modelled from the spec: the constructor `CuMatrix(const CuSpMatrix&)`
(cuda-matrix, not part of the sources) "expands `source` into a dense staging
buffer": the full symmetric matrix. -/
def CuMatrix.ofSp {K : Type} [Zero K] (orig : CuSpMatrix K) : CuMatrixBase K :=
  ⟨orig.num_rows_, orig.num_rows_, fun r c => orig.entry r c⟩

/-- Modelled from the spec: the "dense Cholesky kernel" `CuMatrixBase::Cholesky`
(cuda-matrix, not part of the sources).  The spec names the operation (Cholesky
factorisation, `L·L^T = source` with `L` lower triangular) but no algorithm; the
row-by-row textbook algorithm is taken, the lower triangle of the buffer
receiving the factor. -/
def CuMatrixBase.Cholesky {K : Type} [Field K] (sqrt : K → K) (M : CuMatrixBase K) :
    CuMatrixBase K :=
  { M with
    data_ := fun r c => if c ≤ r then choleskyEntry sqrt (fun i k => M.data_ i k) r c else 0 }

/-- Modelled from the spec: the host routine `TpMatrix::Cholesky` (cpucompute,
not part of the sources), "an equivalent packed-domain Cholesky directly without
staging": the same row-by-row algorithm reading the stored entries of `orig`
and writing the packed buffer; operands of different dimension are a
DimensionMismatch. -/
def TpMatrix.Cholesky {K : Type} [Field K] (sqrt : K → K) (T : CuTpMatrix K)
    (orig : CuSpMatrix K) : Except KaldiError (CuTpMatrix K) :=
  if orig.num_rows_ ≠ T.num_rows_ then
    .error KaldiError.DimensionMismatch
  else
    .ok { T with data_ := choleskyBuf sqrt (fun r c => orig.stored r c) T.num_rows_ }

/-- Method `CuTpMatrix<Real>::Cholesky(const CuSpMatrix<Real> &orig)`.
`enabled` is `HAVE_CUDA == 1 && CuDevice::Instantiate().Enabled()`; `sqrt` is
the square root of the scalar type.
```
if (enabled) {
  CuMatrix<Real> tmp(orig);
  tmp.Cholesky();
  this->CopyFromMat(tmp, kNoTrans);
} else {
  this->Mat().Cholesky(orig.Mat());
}
``` -/
def CuTpMatrix.Cholesky {K : Type} [Field K] (sqrt : K → K) (enabled : Bool)
    (T : CuTpMatrix K) (orig : CuSpMatrix K) : Except KaldiError (CuTpMatrix K) :=
  if enabled then
    let tmp : CuMatrixBase K := CuMatrix.ofSp orig
    let tmp := tmp.Cholesky sqrt
    CuTpMatrix.CopyFromMat true T tmp MatrixTransposeType.kNoTrans
  else
    TpMatrix.Cholesky sqrt T orig

/-- The packed symmetric matrix `[[4, 2], [2, 3]]` over the reals. -/
def exampleSpd : CuSpMatrix ℝ := ⟨2, [4, 2, 3]⟩

/-- A packed triangular matrix of dimension 2 with zero-filled storage. -/
def exampleTpZero : CuTpMatrix ℝ := ⟨2, [0, 0, 0]⟩

/-- A 2 x 2 lower-triangular factor over the rationals: rows `[2]`, `[1, 4]`. -/
def exampleTp : CuTpMatrix ℚ := ⟨2, [2, 1, 4]⟩

/-- A dense 3 x 3 matrix with entry `(r, c)` equal to `10 r + c`. -/
def exampleDense : CuMatrixBase Int := ⟨3, 3, fun r c => 10 * r + c⟩

/-- A dense 2 x 3 matrix. -/
def exampleDenseNonSquare : CuMatrixBase Int := ⟨2, 3, fun r c => 10 * r + c⟩

/-! ## train-ctc-parallel: options -/

/-- The initial value of `utts_per_avg` in `main`: `int32 utts_per_avg = 500;`. -/
def utts_per_avg_init : Int := 500

/-- The help text registered for `--utts-per-avg`. -/
def utts_per_avg_help : String :=
  "Number of utterances to process per average (default is 250)"

/-- The default that the help text of `--utts-per-avg` documents. -/
def utts_per_avg_documented : Int := 250

/-- Option registration `po.Register("utts-per-avg", &utts_per_avg, ...)` followed by `po.Read`:
the variable keeps its initial value unless the option is given. -/
def utts_per_avg (given : Option Int) : Int :=
  match given with
  | some v => v
  | none => utts_per_avg_init

/-- The averaging trigger of the main loop:
`num_jobs != 1 && (num_done + cur_sequence_num) / utts_per_avg != num_done / utts_per_avg`. -/
def averagingTrigger (num_jobs num_done cur_sequence_num utts : Int) : Bool :=
  num_jobs != 1 &&
    Int.tdiv (num_done + cur_sequence_num) utts != Int.tdiv num_done utts

/-! ## train-ctc-parallel: batch assembly and padded copy -/

/-- One entry of the feature archive as the main loop sees it: whether
`targets_reader.HasKey(utt)` holds, and the feature matrix `mat` given by
`mat.NumRows()` and its rows `mat.Row(r)` (`α` is the type of a feature row). -/
structure Utterance (α : Type) where
  has_targets : Bool
  num_rows : Int
  row : Int → α

/-- The state of one pass of the batch-assembly loop: the utterances accepted so
far, in order (entry `s` supplies `feats_utt[s]` and `frame_num_utt[s]`; its
length is both `sequence_index` and `frame_num_utt.size()`), and `max_frame_num`. -/
structure Batch (α : Type) where
  utts : List (Utterance α)
  max_frame_num : Int

/-- The vector `frame_num_utt`: `mat.NumRows()` of each accepted utterance. -/
def Batch.frame_num_utt {α : Type} (b : Batch α) : List Int :=
  b.utts.map (fun u => u.num_rows)

/-- Conversion of a 32-bit integer to `size_t` (64 bit), as in the comparison
`frame_num_utt.size() == num_sequence` and in `feats_utt(num_sequence)`. -/
def toSizeT (x : Int) : Int := x % 2 ^ 64

/-- The batch-assembly loop of `main`:
```
for ( ; !feature_reader.Done(); feature_reader.Next()) {
  if (!targets_reader.HasKey(utt)) { num_no_tgt_mat++; continue; }
  Matrix<BaseFloat> mat = feature_reader.Value();
  if (max_frame_num < mat.NumRows()) max_frame_num = mat.NumRows();
  feats_utt[sequence_index] = mat;
  labels_utt[sequence_index] = targets;
  frame_num_utt.push_back(mat.NumRows());
  sequence_index++;
  if (frame_num_utt.size() == num_sequence ||
      frame_num_utt.size() * max_frame_num > frame_limit) {
    feature_reader.Next(); break;
  }
}
```
The argument list is what the reader still holds; the result is the batch and
the rest of the archive.  `feats_utt` has `num_sequence` elements, so a write at
an index outside is undefined and gives `none`.  The test against the `double`
`frame_limit` is the parameter `limitReached`, applied to
`frame_num_utt.size()` and `max_frame_num`. -/
def assembleBatch {α : Type} (num_sequence : Int) (limitReached : Nat → Int → Bool) :
    List (Utterance α) → Batch α → Option (Batch α × List (Utterance α))
  | [], b => some (b, [])
  | u :: rest, b =>
    if u.has_targets = false then
      assembleBatch num_sequence limitReached rest b
    else
      let max_frame_num := if b.max_frame_num < u.num_rows then u.num_rows else b.max_frame_num
      if (b.utts.length : Int) < toSizeT num_sequence then
        let utts := b.utts ++ [u]
        if (utts.length : Int) = toSizeT num_sequence ∨
            limitReached utts.length max_frame_num = true then
          some (⟨utts, max_frame_num⟩, rest)
        else
          assembleBatch num_sequence limitReached rest ⟨utts, max_frame_num⟩
      else
        none

/-- The state at the top of the `while (1)` body:
`std::vector<int> frame_num_utt; int32 sequence_index = 0, max_frame_num = 0;`. -/
def emptyBatch {α : Type} : Batch α := ⟨[], 0⟩

/-- The value of `int32 cur_sequence_num = frame_num_utt.size();`. -/
def Batch.cur_sequence_num {α : Type} (b : Batch α) : Int :=
  wrapInt32 b.utts.length

/-- The row count `cur_sequence_num * max_frame_num` (a 32-bit product) of
`feat_mat_host`. -/
def Batch.paddedRows {α : Type} (b : Batch α) : Int :=
  wrapInt32 (b.cur_sequence_num * b.max_frame_num)

/-- The destination row `r*cur_sequence_num + s` (32-bit arithmetic). -/
def destRow (cur_sequence_num r s : Int) : Int :=
  wrapInt32 (wrapInt32 (r * cur_sequence_num) + s)

/-- The frame-limit test with the default `frame_limit = 100000`, for sizes
whose product is represented exactly. -/
def defaultLimitReached (size : Nat) (max_frame_num : Int) : Bool :=
  decide ((size : Int) * max_frame_num > 100000)

/-- The properties of an assembled batch that the padded copy relies on: every
frame count is a non-negative 32-bit number not above `max_frame_num`, and
`max_frame_num` is the maximum of the frame counts (0 for an empty batch). -/
def Batch.Valid {α : Type} (b : Batch α) : Prop :=
  (∀ u ∈ b.utts, 0 ≤ u.num_rows ∧ u.num_rows ≤ b.max_frame_num ∧ u.num_rows < 2 ^ 31) ∧
  (b.utts = [] → b.max_frame_num = 0) ∧
  (b.utts ≠ [] → ∃ u ∈ b.utts, u.num_rows = b.max_frame_num)

/-- The padded feature matrix `feat_mat_host`, a `Matrix<BaseFloat>` seen as its
row count and its rows. -/
structure FeatMatrix (α : Type) where
  num_rows : Int
  row : Int → α

/-- The constructor `Matrix<BaseFloat>(rows, feat_dim, kSetZero)`: every row is
the zero row. -/
def FeatMatrix.zeros {α : Type} (zero : α) (rows : Int) : FeatMatrix α :=
  ⟨rows, fun _ => zero⟩

/-- The write `feat_mat_host.Row(i).CopyFromVec(v)`: row `i` becomes `v`; a row
index outside `[0, NumRows())` is outside the matrix (`none`). -/
def FeatMatrix.setRow {α : Type} (M : FeatMatrix α) (i : Int) (v : α) :
    Option (FeatMatrix α) :=
  if 0 ≤ i ∧ i < M.num_rows then
    some { M with row := fun j => if j = i then v else M.row j }
  else
    none

/-- The inner copy loop for utterance `s`, after `k` iterations:
```
for (int r = 0; r < frame_num_utt[s]; r++)
  feat_mat_host.Row(r*cur_sequence_num + s).CopyFromVec(mat_tmp.Row(r));
``` -/
def copyRows {α : Type} (cur_sequence_num s : Int) (mat_tmp : Utterance α) :
    Nat → FeatMatrix α → Option (FeatMatrix α)
  | 0, M => some M
  | k + 1, M =>
    match copyRows cur_sequence_num s mat_tmp k M with
    | none => none
    | some M1 => M1.setRow (destRow cur_sequence_num k s) (mat_tmp.row k)

/-- The outer copy loop, from utterance `s` on, over the remaining entries of
`feats_utt`:
```
for (int s = 0; s < cur_sequence_num; s++) {
  Matrix<BaseFloat> mat_tmp = feats_utt[s];
  for (int r = 0; r < frame_num_utt[s]; r++) ...
}
``` -/
def copyUtts {α : Type} (cur_sequence_num : Int) :
    List (Utterance α) → Int → FeatMatrix α → Option (FeatMatrix α)
  | [], _, M => some M
  | u :: us, s, M =>
    match copyRows cur_sequence_num s u u.num_rows.toNat M with
    | none => none
    | some M1 => copyUtts cur_sequence_num us (s + 1) M1

/-- The padded feature matrix of a batch (the branch without language id):
```
Matrix<BaseFloat> feat_mat_host(cur_sequence_num * max_frame_num, feat_dim, kSetZero);
for (int s = 0; s < cur_sequence_num; s++) ...
```
A negative row count is not a matrix (`none`). -/
def padBatch {α : Type} (zero : α) (b : Batch α) : Option (FeatMatrix α) :=
  if 0 ≤ b.paddedRows then
    copyUtts b.cur_sequence_num b.utts 0 (FeatMatrix.zeros zero b.paddedRows)
  else
    none

/-- An utterance with targets, `n` frames, frame `r` being the number `r`. -/
def exampleUtt (n : Int) : Utterance Int := ⟨true, n, fun r => r⟩

/-- An archive of three utterances with 2, 3 and 1 frames; the second key has
no targets. -/
def exampleStream : List (Utterance Int) :=
  [exampleUtt 2, ⟨false, 3, fun r => r⟩, exampleUtt 1]

/-- An archive of four one-frame utterances followed by one of 858993460
frames. -/
def overflowStream : List (Utterance Int) :=
  [exampleUtt 1, exampleUtt 1, exampleUtt 1, exampleUtt 1, exampleUtt 858993460]

/-- The batch that the loop assembles from `overflowStream`. -/
def overflowBatch : Batch Int := ⟨overflowStream, 858993460⟩

/-! ## Dual-path operations over arbitrary kernels -/

/-- The routines that the dual-path operations of `cuda-tp-matrix.cc` call and
that are not part of the sources, as far as the two paths have counterparts of
each other.  On the accelerator path: the device kernels `cuda_take_lower` and
`cuda_take_upper`, the dense `CuMatrixBase::Cholesky` and `cublas_trsm`.  On the
host path: `TpMatrix::CopyFromMat`, `TpMatrix::Invert` and `TpMatrix::Cholesky`. -/
structure Backends (K : Type) where
  take_lower : CuMatrixBase K → List K
  take_upper : CuMatrixBase K → List K
  denseCholesky : CuMatrixBase K → CuMatrixBase K
  trsm : Nat → Nat → K → CuMatrixBase K → CuMatrixBase K → CuMatrixBase K
  hostCopyFromMat :
    CuTpMatrix K → CuMatrixBase K → MatrixTransposeType → Except KaldiError (CuTpMatrix K)
  hostInvert : CuTpMatrix K → CuTpMatrix K
  hostCholesky : CuTpMatrix K → CuSpMatrix K → Except KaldiError (CuTpMatrix K)

/-- Method `CuTpMatrix<Real>::CopyFromMat` with the absent routines taken from `B`:
```
if (enabled) {
  MatrixIndexT num_rows = this->num_rows_;
  KALDI_ASSERT(num_rows == M.NumRows() && this->num_rows_ == M.NumCols());
  if (num_rows == 0) return;
  if (Trans == kNoTrans) cuda_take_lower(.., M.Data(), this->data_, M.Dim());
  else                   cuda_take_upper(.., M.Data(), this->data_, M.Dim());
} else {
  Mat().CopyFromMat(M.Mat(), Trans);
}
``` -/
def Backends.CopyFromMat {K : Type} (B : Backends K) (enabled : Bool) (T : CuTpMatrix K)
    (M : CuMatrixBase K) (Trans : MatrixTransposeType) : Except KaldiError (CuTpMatrix K) :=
  if enabled then
    let num_rows := T.num_rows_
    if ¬ (num_rows = M.num_rows_ ∧ T.num_rows_ = M.num_cols_) then
      .error KaldiError.DimensionMismatch
    else if num_rows = 0 then
      .ok T
    else if Trans = MatrixTransposeType.kNoTrans then
      .ok { T with data_ := B.take_lower M }
    else
      .ok { T with data_ := B.take_upper M }
  else
    B.hostCopyFromMat T M Trans

/-- Method `CuTpMatrix<Real>::Invert` with the absent routines taken from `B`:
```
if (enabled) {
  if (this->num_rows_ == 0) return;
  CuMatrix<Real> tmp(this->NumRows(), this->NumRows());
  int dim = this->NumRows();
  Real alpha = 1.0;
  cuda_set_diag(.., tmp.Data(), alpha, tmp.Dim());
  CuMatrix<Real> tmp2(dim, dim);
  tmp2.CopyFromTp(*this);
  cublas_trsm(dim, dim, alpha, tmp2.Data(), .., tmp.Data(), ..);
  this->CopyFromMat(tmp, kNoTrans);
} else {
  Mat().Invert();
}
``` -/
def Backends.Invert {K : Type} [Zero K] [One K] (B : Backends K) (enabled : Bool)
    (T : CuTpMatrix K) : Except KaldiError (CuTpMatrix K) :=
  if enabled then
    if T.num_rows_ = 0 then
      .ok T
    else
      let tmp : CuMatrixBase K := CuMatrix.zero T.num_rows_ T.num_rows_
      let dim := T.num_rows_
      let alpha : K := 1
      let tmp := cuda_set_diag tmp alpha
      let tmp2 : CuMatrixBase K := CuMatrix.zero dim dim
      let tmp2 := tmp2.CopyFromTp T
      let tmp := B.trsm dim dim alpha tmp2 tmp
      B.CopyFromMat true T tmp MatrixTransposeType.kNoTrans
  else
    .ok (B.hostInvert T)

/-- Method `CuTpMatrix<Real>::Cholesky` with the absent routines taken from `B`:
```
if (enabled) {
  CuMatrix<Real> tmp(orig);
  tmp.Cholesky();
  this->CopyFromMat(tmp, kNoTrans);
} else {
  this->Mat().Cholesky(orig.Mat());
}
``` -/
def Backends.Cholesky {K : Type} [Zero K] (B : Backends K) (enabled : Bool)
    (T : CuTpMatrix K) (orig : CuSpMatrix K) : Except KaldiError (CuTpMatrix K) :=
  if enabled then
    let tmp : CuMatrixBase K := CuMatrix.ofSp orig
    let tmp := B.denseCholesky tmp
    B.CopyFromMat true T tmp MatrixTransposeType.kNoTrans
  else
    B.hostCholesky T orig

/-- The lower triangle of the leading `n x n` block of a dense matrix, zero
above the diagonal. -/
def CuMatrixBase.toLower {K : Type} [Zero K] (M : CuMatrixBase K) (n : Nat) :
    Matrix (Fin n) (Fin n) K :=
  fun i j => if (j : Nat) ≤ (i : Nat) then M.data_ i j else 0

/-- The routines as modelled in the sections above, for a square root `sqrt`. -/
def modelBackends {K : Type} [Field K] (sqrt : K → K) : Backends K :=
  ⟨cuda_take_lower, cuda_take_upper, CuMatrixBase.Cholesky sqrt, cublas_trsm,
    TpMatrix.CopyFromMat, TpMatrix.Invert, TpMatrix.Cholesky sqrt⟩

/-- Wrapping a representable value changes nothing. -/
theorem wrapInt32_of_isInt32 {x : Int} (h : IsInt32 x) : wrapInt32 x = x := by
  unfold IsInt32 at h
  unfold wrapInt32
  omega

/-- The unsigned cast of a non-negative index is the index itself. -/
theorem toUnsigned_of_nonneg {x : Int} (h0 : 0 ≤ x) (h : x < 2 ^ 31) : toUnsigned x = x := by
  unfold toUnsigned
  omega

/-- The unsigned cast of a negative index is the index plus `2^32`. -/
theorem toUnsigned_of_neg {x : Int} (h0 : x < 0) (h : -(2 ^ 31) ≤ x) :
    toUnsigned x = x + 2 ^ 32 := by
  unfold toUnsigned
  omega

/-- Below the overflow threshold the wrapped product is the exact product. -/
theorem wrap_mul_succ {r : Int} (h0 : 0 ≤ r) (h : r ≤ 46340) :
    wrapInt32 (r * wrapInt32 (r + 1)) = r * (r + 1) := by
  have h1 : wrapInt32 (r + 1) = r + 1 := wrapInt32_of_isInt32 (by unfold IsInt32; omega)
  rw [h1]
  apply wrapInt32_of_isInt32
  unfold IsInt32
  constructor
  · nlinarith
  · nlinarith

/-- The offset computed by the accessor for in-range indices below the
overflow threshold. -/
theorem elementOffset_eq {n r c : Int} (hn : n ≤ 46341)
    (hr0 : 0 ≤ r) (hr : r < n) (hc0 : 0 ≤ c) (hc : c < n) :
    CuSpMatrix.elementOffset n r c = .ok (max r c * (max r c + 1) / 2 + min r c) := by
  have hur : toUnsigned r = r := toUnsigned_of_nonneg hr0 (by omega)
  have huc : toUnsigned c = c := toUnsigned_of_nonneg hc0 (by omega)
  have hun : toUnsigned n = n := toUnsigned_of_nonneg (by omega) (by omega)
  unfold CuSpMatrix.elementOffset
  simp only [hur, huc, hun]
  by_cases hcr : c > r
  · have hmax : max r c = c := max_eq_right (by omega)
    have hmin : min r c = r := min_eq_left (by omega)
    simp only [hcr, decide_True, if_true, huc, hc, hmax, hmin]
    rw [wrap_mul_succ hc0 (by omega), Int.tdiv_eq_ediv (by positivity) (by norm_num)]
  · have hmax : max r c = r := max_eq_left (by omega)
    have hmin : min r c = c := min_eq_right (by omega)
    simp only [hcr, decide_False, Bool.false_eq_true, if_false, hur, hr, if_true, hmax, hmin]
    rw [wrap_mul_succ hr0 (by omega), Int.tdiv_eq_ediv (by positivity) (by norm_num)]

/-- The offset computed by the accessor for in-range indices whose larger index
is below the overflow threshold, whatever the 32-bit dimension. -/
theorem elementOffset_eq_of_max_le {n r c : Int} (hn : n < 2 ^ 31)
    (hr0 : 0 ≤ r) (hr : r < n) (hc0 : 0 ≤ c) (hc : c < n) (hmax : max r c ≤ 46340) :
    CuSpMatrix.elementOffset n r c = .ok (max r c * (max r c + 1) / 2 + min r c) := by
  have hrm : r ≤ 46340 := le_trans (le_max_left r c) hmax
  have hcm : c ≤ 46340 := le_trans (le_max_right r c) hmax
  have hur : toUnsigned r = r := toUnsigned_of_nonneg hr0 (by omega)
  have huc : toUnsigned c = c := toUnsigned_of_nonneg hc0 (by omega)
  have hun : toUnsigned n = n := toUnsigned_of_nonneg (by omega) hn
  unfold CuSpMatrix.elementOffset
  simp only [hur, huc, hun]
  by_cases hcr : c > r
  · have hmx : max r c = c := max_eq_right (by omega)
    have hmn : min r c = r := min_eq_left (by omega)
    simp only [hcr, decide_True, if_true, huc, hc, hmx, hmn]
    rw [wrap_mul_succ hc0 hcm, Int.tdiv_eq_ediv (by positivity) (by norm_num)]
  · have hmx : max r c = r := max_eq_left (by omega)
    have hmn : min r c = c := min_eq_right (by omega)
    simp only [hcr, decide_False, Bool.false_eq_true, if_false, hur, hr, if_true, hmx, hmn]
    rw [wrap_mul_succ hr0 hrm, Int.tdiv_eq_ediv (by positivity) (by norm_num)]

/-- From the overflow threshold on, the halved wrapped product differs from the
exact half product: the product is even and at least `2^31`, so wrapping
subtracts a positive multiple of `2^32`. -/
theorem wrap_mul_succ_overflow {m : Int} (h0 : 46341 ≤ m) (h : m < 2 ^ 31 - 1) :
    Int.tdiv (wrapInt32 (m * wrapInt32 (m + 1))) 2 ≠ m * (m + 1) / 2 := by
  have h1 : wrapInt32 (m + 1) = m + 1 := wrapInt32_of_isInt32 (by unfold IsInt32; omega)
  rw [h1]
  obtain ⟨q, hq⟩ : ∃ q, m * (m + 1) = 2 * q := by
    have he : Even (m * (m + 1)) := Int.even_mul_succ_self m
    obtain ⟨q, hq⟩ := he
    exact ⟨q, by omega⟩
  have hbig : (2 : Int) ^ 31 ≤ 2 * q := by rw [← hq]; nlinarith
  rw [hq]
  unfold wrapInt32
  obtain ⟨w, hw⟩ : ∃ w, (2 * q + 2 ^ 31) % 2 ^ 32 - 2 ^ 31 = 2 * w :=
    ⟨((2 * q + 2 ^ 31) % 2 ^ 32 - 2 ^ 31) / 2, by omega⟩
  rw [hw, Int.mul_tdiv_cancel_left w (by norm_num : (2 : Int) ≠ 0)]
  omega

/-- For in-range indices whose larger index is at or above the overflow
threshold the accessor computes an offset other than the packed position. -/
theorem elementOffset_overflow {n r c : Int} (hn : n < 2 ^ 31)
    (hr0 : 0 ≤ r) (hr : r < n) (hc0 : 0 ≤ c) (hc : c < n) (hmax : 46341 ≤ max r c) :
    CuSpMatrix.elementOffset n r c ≠ .ok (max r c * (max r c + 1) / 2 + min r c) := by
  have hur : toUnsigned r = r := toUnsigned_of_nonneg hr0 (by omega)
  have huc : toUnsigned c = c := toUnsigned_of_nonneg hc0 (by omega)
  have hun : toUnsigned n = n := toUnsigned_of_nonneg (by omega) hn
  unfold CuSpMatrix.elementOffset
  simp only [hur, huc, hun]
  by_cases hcr : c > r
  · have hmx : max r c = c := max_eq_right (by omega)
    have hmn : min r c = r := min_eq_left (by omega)
    simp only [hcr, decide_True, if_true, huc, hc, hmx, hmn]
    intro hh
    injection hh with hh
    exact @wrap_mul_succ_overflow c (by omega) (by omega) (by omega)
  · have hmx : max r c = r := max_eq_left (by omega)
    have hmn : min r c = c := min_eq_right (by omega)
    simp only [hcr, decide_False, Bool.false_eq_true, if_false, hur, hr, if_true, hmx, hmn]
    intro hh
    injection hh with hh
    exact @wrap_mul_succ_overflow r (by omega) (by omega) (by omega)

/-- The only failure of the accessor is the failed range assertion. -/
theorem elementOffset_ok_or_error (n r c : Int) :
    (∃ v, CuSpMatrix.elementOffset n r c = .ok v) ∨
      CuSpMatrix.elementOffset n r c = .error KaldiError.IndexOutOfRange := by
  unfold CuSpMatrix.elementOffset
  simp only []
  split_ifs <;> first | exact Or.inl ⟨_, rfl⟩ | exact Or.inr rfl

/-- The accessor fails exactly when one of the two indices is outside `[0, n)`. -/
theorem elementOffset_error_iff {n r c : Int} (hn0 : 0 ≤ n) (hn : n < 2 ^ 31)
    (hr : IsInt32 r) (hc : IsInt32 c) :
    CuSpMatrix.elementOffset n r c = .error KaldiError.IndexOutOfRange ↔
      ¬ (0 ≤ r ∧ r < n ∧ 0 ≤ c ∧ c < n) := by
  unfold IsInt32 at hr hc
  unfold CuSpMatrix.elementOffset toUnsigned
  by_cases hcr : c % 2 ^ 32 > r % 2 ^ 32
  · simp only [hcr, decide_True, if_true]
    split
    · simp only [reduceCtorEq, false_iff, not_not]; omega
    · simp only [true_iff]; omega
  · simp only [hcr, decide_False, Bool.false_eq_true, if_false]
    split
    · simp only [reduceCtorEq, false_iff, not_not]; omega
    · simp only [true_iff]; omega

/-! ## Helper lemmas: symmetric double sums -/

/-- A double sum of a symmetric family over the square splits into twice the
strictly-lower part plus the diagonal. -/
theorem sum_square_of_symm {K : Type} [CommRing K] (g : Nat → Nat → K)
    (hg : ∀ i j, g i j = g j i) (n : Nat) :
    ∑ i in Finset.range n, ∑ j in Finset.range n, g i j
      = (∑ i in Finset.range n, ∑ j in Finset.range i, 2 * g i j)
        + ∑ i in Finset.range n, g i i := by
  induction n with
  | zero => simp
  | succ n ih =>
    have hcol : ∑ i in Finset.range n, g i n = ∑ j in Finset.range n, g n j :=
      Finset.sum_congr rfl (fun i _ => hg i n)
    have hsplit : ∑ i in Finset.range n, ∑ j in Finset.range (n + 1), g i j
        = (∑ i in Finset.range n, ∑ j in Finset.range n, g i j)
          + ∑ i in Finset.range n, g i n := by
      rw [← Finset.sum_add_distrib]
      exact Finset.sum_congr rfl (fun i _ => Finset.sum_range_succ _ _)
    rw [Finset.sum_range_succ, hsplit, Finset.sum_range_succ (fun j => g n j), ih, hcol,
      Finset.sum_range_succ (fun i => ∑ j in Finset.range i, 2 * g i j),
      Finset.sum_range_succ (fun i => g i i), ← Finset.mul_sum]
    ring

/-- The product of mirrored entries is a symmetric family. -/
theorem entry_mul_symm {K : Type} [CommRing K] (A B : CuSpMatrix K) (i j : Nat) :
    A.entry i j * B.entry j i = A.entry j i * B.entry i j := by
  unfold CuSpMatrix.entry
  rw [max_comm j i, min_comm j i]

/-- The modelled `TraceSpSp` is the full double sum of mirrored products. -/
theorem TraceSpSp_eq_double_sum {K : Type} [CommRing K] (A B : CuSpMatrix K) :
    TraceSpSp A B
      = ∑ i in Finset.range A.num_rows_, ∑ j in Finset.range A.num_rows_,
          A.entry i j * B.entry j i := by
  rw [sum_square_of_symm (fun i j => A.entry i j * B.entry j i) (entry_mul_symm A B)]
  unfold TraceSpSp
  congr 1
  · refine Finset.sum_congr rfl (fun i _ => Finset.sum_congr rfl (fun j hj => ?_))
    have hji : j < i := Finset.mem_range.mp hj
    unfold CuSpMatrix.entry
    rw [max_eq_left hji.le, min_eq_right hji.le, max_eq_right hji.le, min_eq_left hji.le]
    ring
  · refine Finset.sum_congr rfl (fun i _ => ?_)
    unfold CuSpMatrix.entry
    rw [max_self, min_self]

/-! ## Helper lemmas: the packed layout -/

/-- Triangular numbers: row `n + 1` starts `n + 1` entries after row `n`. -/
theorem tri_succ (n : Nat) : (n + 1) * (n + 1 + 1) / 2 = n * (n + 1) / 2 + (n + 1) := by
  have h : (n + 1) * (n + 1 + 1) = n * (n + 1) + 2 * (n + 1) := by ring
  rw [h, Nat.add_mul_div_left _ _ (by norm_num : 0 < 2)]

/-- Row starts are monotone. -/
theorem tri_mono {r n : Nat} (h : r ≤ n) : r * (r + 1) / 2 ≤ n * (n + 1) / 2 :=
  Nat.div_le_div_right (Nat.mul_le_mul h (Nat.succ_le_succ h))

/-- The packed buffer of dimension `n` has `n (n+1) / 2` entries. -/
theorem length_packLower {K : Type} (f : Nat → Nat → K) (n : Nat) :
    (packLower f n).length = n * (n + 1) / 2 := by
  induction n with
  | zero => rfl
  | succ n ih =>
    simp only [packLower, List.length_append, List.length_map, List.length_range, ih]
    exact (tri_succ n).symm

/-- Reading position `r (r+1) / 2 + c` of the packed buffer gives `f r c`. -/
theorem getD_packLower {K : Type} (f : Nat → Nat → K) (d : K) {n r c : Nat}
    (hc : c ≤ r) (hr : r < n) :
    (packLower f n).getD (r * (r + 1) / 2 + c) d = f r c := by
  induction n with
  | zero => exact absurd hr (Nat.not_lt_zero r)
  | succ n ih =>
    simp only [packLower]
    rcases Nat.lt_succ_iff_lt_or_eq.mp hr with hlt | heq
    · have hlen : r * (r + 1) / 2 + c < (packLower f n).length := by
        rw [length_packLower]
        have h1 := tri_succ r
        have h2 : (r + 1) * (r + 1 + 1) / 2 ≤ n * (n + 1) / 2 := tri_mono hlt
        omega
      rw [List.getD_append _ _ _ _ hlen]
      exact ih hlt
    · subst heq
      have hlen : (packLower f r).length ≤ r * (r + 1) / 2 + c := by
        rw [length_packLower]; exact Nat.le_add_right _ _
      rw [List.getD_append_right _ _ _ _ hlen, length_packLower, Nat.add_sub_cancel_left]
      have hc' : c < (List.map (f r) (List.range (r + 1))).length := by
        simp only [List.length_map, List.length_range]; omega
      rw [List.getD_eq_getElem _ _ hc']
      simp only [List.getElem_map, List.getElem_range]

/-- The packed buffer depends on the lower triangle of `f` only. -/
theorem packLower_congr {K : Type} (f g : Nat → Nat → K) (n : Nat)
    (h : ∀ r c, c ≤ r → r < n → f r c = g r c) : packLower f n = packLower g n := by
  induction n with
  | zero => rfl
  | succ n ih =>
    simp only [packLower]
    rw [ih (fun r c hc hr => h r c hc (Nat.lt_succ_of_lt hr))]
    congr 1
    apply List.map_congr_left
    intro c hc
    exact h n c (Nat.lt_succ_iff.mp (List.mem_range.mp hc)) (Nat.lt_succ_self n)

/-- Successful runs of `CopyFromMat`: on either path, for an `n x n` source the
result is `T` itself when `n = 0` and otherwise `T` with the packed buffer
rewritten from the selected triangle. -/
theorem CopyFromMat_ok {K : Type} (enabled : Bool) (T : CuTpMatrix K) (M : CuMatrixBase K)
    (Trans : MatrixTransposeType) (hr : M.num_rows_ = T.num_rows_)
    (hc : M.num_cols_ = T.num_rows_) :
    CuTpMatrix.CopyFromMat enabled T M Trans
      = .ok (if T.num_rows_ = 0 then T else
          { T with data_ := packLower (M.triangleEntry Trans) T.num_rows_ }) := by
  cases enabled <;> cases Trans <;>
    by_cases h0 : T.num_rows_ = 0 <;>
    simp [CuTpMatrix.CopyFromMat, TpMatrix.CopyFromMat, cuda_take_lower, cuda_take_upper,
      hr, hc, h0] <;> rfl

/-- Failing runs of `CopyFromMat`: on either path, a source that is not
`n x n` fails the dimension assertion. -/
theorem CopyFromMat_error {K : Type} (enabled : Bool) (T : CuTpMatrix K) (M : CuMatrixBase K)
    (Trans : MatrixTransposeType) (h : ¬ (M.num_rows_ = T.num_rows_ ∧ M.num_cols_ = T.num_rows_)) :
    CuTpMatrix.CopyFromMat enabled T M Trans = .error KaldiError.DimensionMismatch := by
  have h' : ¬ (T.num_rows_ = M.num_rows_ ∧ T.num_rows_ = M.num_cols_) :=
    fun hh => h ⟨hh.1.symm, hh.2.symm⟩
  cases enabled
  · simp only [CuTpMatrix.CopyFromMat, TpMatrix.CopyFromMat, Bool.false_eq_true, if_false, h,
      not_false_eq_true, if_true]
  · simp only [CuTpMatrix.CopyFromMat, if_true, h', not_false_eq_true]

/-! ## Helper lemmas: forward substitution -/

/-- Forward substitution up to row `i` produces `i` unknowns. -/
theorem length_forwardSubst {K : Type} [Field K] (a : Nat → Nat → K) (b : Nat → K) (i : Nat) :
    (forwardSubst a b i).length = i := by
  induction i with
  | zero => rfl
  | succ i ih => simp only [forwardSubst, List.length_append, ih, List.length_singleton]

/-- Later steps of the forward substitution do not change earlier unknowns. -/
theorem getD_forwardSubst {K : Type} [Field K] (a : Nat → Nat → K) (b : Nat → K)
    {k i : Nat} (h : k < i) :
    (forwardSubst a b i).getD k 0 = forwardSol a b k := by
  induction i with
  | zero => exact absurd h (Nat.not_lt_zero k)
  | succ i ih =>
    rcases Nat.lt_succ_iff_lt_or_eq.mp h with hlt | heq
    · have hlen : k < (forwardSubst a b i).length := by rw [length_forwardSubst]; exact hlt
      simp only [forwardSubst]
      rw [List.getD_append _ _ _ _ hlen]
      exact ih hlt
    · subst heq
      rfl

/-- The defining recurrence of the forward substitution. -/
theorem forwardSol_eq {K : Type} [Field K] (a : Nat → Nat → K) (b : Nat → K) (i : Nat) :
    forwardSol a b i
      = (b i - ∑ k in Finset.range i, a i k * forwardSol a b k) / a i i := by
  have hlen : (forwardSubst a b i).length ≤ i := by rw [length_forwardSubst]
  unfold forwardSol
  simp only [forwardSubst]
  rw [List.getD_append_right _ _ _ _ hlen, length_forwardSubst, Nat.sub_self]
  simp only [List.getD_cons_zero]
  congr 2
  refine Finset.sum_congr rfl (fun k hk => ?_)
  rw [getD_forwardSubst a b (Finset.mem_range.mp hk)]
  rfl

/-- Row `i` of the system holds for the computed unknowns when the pivot is
non-zero. -/
theorem forwardSol_row {K : Type} [Field K] (a : Nat → Nat → K) (b : Nat → K) (i : Nat)
    (hpiv : a i i ≠ 0) :
    ∑ k in Finset.range (i + 1), a i k * forwardSol a b k = b i := by
  rw [Finset.sum_range_succ, forwardSol_eq a b i, mul_div_cancel₀ _ hpiv]
  ring

/-- Unknowns above the first non-zero entry of the right-hand side vanish. -/
theorem forwardSol_eq_zero {K : Type} [Field K] (a : Nat → Nat → K) (b : Nat → K) (j : Nat)
    (hb : ∀ k, k < j → b k = 0) (i : Nat) (hi : i < j) : forwardSol a b i = 0 := by
  induction i using Nat.strong_induction_on with
  | _ i ih =>
    rw [forwardSol_eq, hb i hi]
    have hsum : ∑ k in Finset.range i, a i k * forwardSol a b k = 0 := by
      apply Finset.sum_eq_zero
      intro k hk
      have hki : k < i := Finset.mem_range.mp hk
      rw [ih k hki (lt_trans hki hi), mul_zero]
    rw [hsum, sub_zero, zero_div]

/-- Forward substitution reads the lower triangle of the system only. -/
theorem forwardSubst_congr {K : Type} [Field K] (a a1 : Nat → Nat → K) (b b1 : Nat → K)
    (n : Nat) (ha : ∀ i k, k ≤ i → i < n → a i k = a1 i k) (hb : ∀ i, i < n → b i = b1 i) :
    forwardSubst a b n = forwardSubst a1 b1 n := by
  induction n with
  | zero => rfl
  | succ n ih =>
    have ih1 := ih (fun i k hk hi => ha i k hk (Nat.lt_succ_of_lt hi))
      (fun i hi => hb i (Nat.lt_succ_of_lt hi))
    simp only [forwardSubst]
    rw [ih1, hb n (Nat.lt_succ_self n), ha n n (le_refl n) (Nat.lt_succ_self n)]
    congr 4
    refine Finset.sum_congr rfl (fun k hk => ?_)
    rw [ha n k (Finset.mem_range.mp hk).le (Nat.lt_succ_self n)]

/-- A single unknown depends on the lower triangle of the first rows only. -/
theorem forwardSol_congr {K : Type} [Field K] (a a1 : Nat → Nat → K) (b b1 : Nat → K)
    (i : Nat) (ha : ∀ r k, k ≤ r → r ≤ i → a r k = a1 r k) (hb : ∀ r, r ≤ i → b r = b1 r) :
    forwardSol a b i = forwardSol a1 b1 i := by
  unfold forwardSol
  rw [forwardSubst_congr a a1 b b1 (i + 1)
    (fun r k hk hr => ha r k hk (Nat.lt_succ_iff.mp hr))
    (fun r hr => hb r (Nat.lt_succ_iff.mp hr))]

/-- The packed lower triangle of the column-wise solution against the identity
is a right inverse of the lower-triangular system it was computed from. -/
theorem toLower_mul_solution {K : Type} [Field K] (T : CuTpMatrix K) (n : Nat)
    (hdiag : ∀ i, i < n → T.stored i i ≠ 0) (X : CuTpMatrix K)
    (hX : ∀ r c, c ≤ r → r < n →
      X.stored r c
        = forwardSol (fun i k => T.stored i k) (fun i => if i = c then 1 else 0) r) :
    T.toLower n * X.toLower n = 1 := by
  ext i j
  rw [Matrix.mul_apply, Matrix.one_apply]
  have hcol : ∀ k : Nat, k < n →
      (if (j : Nat) ≤ k then X.stored k j else 0)
        = forwardSol (fun i k => T.stored i k) (fun r => if r = (j : Nat) then 1 else 0) k := by
    intro k hk
    by_cases hjk : (j : Nat) ≤ k
    · rw [if_pos hjk, hX k j hjk hk]
    · rw [if_neg hjk]
      symm
      apply forwardSol_eq_zero _ _ (j : Nat) _ k (Nat.lt_of_not_le hjk)
      intro r hr
      rw [if_neg (Nat.ne_of_lt hr)]
  have hsum : ∑ k : Fin n, T.toLower n i k * X.toLower n k j
      = ∑ k in Finset.range n,
          (if k ≤ (i : Nat) then T.stored i k else 0)
            * (if (j : Nat) ≤ k then X.stored k j else 0) := by
    rw [Finset.sum_range]
    rfl
  rw [hsum]
  have hcut : ∑ k in Finset.range n,
        (if k ≤ (i : Nat) then T.stored i k else 0)
          * (if (j : Nat) ≤ k then X.stored k j else 0)
      = ∑ k in Finset.range ((i : Nat) + 1), T.stored i k
          * forwardSol (fun i k => T.stored i k) (fun r => if r = (j : Nat) then 1 else 0) k := by
    rw [← Finset.sum_subset (Finset.range_subset.mpr (Nat.succ_le_of_lt i.isLt))]
    · refine Finset.sum_congr rfl (fun k hk => ?_)
      have hki : k ≤ (i : Nat) := Nat.lt_succ_iff.mp (Finset.mem_range.mp hk)
      rw [if_pos hki, hcol k (lt_of_le_of_lt hki i.isLt)]
    · intro k _ hk
      have hki : ¬ k ≤ (i : Nat) := fun h => hk (Finset.mem_range.mpr (Nat.lt_succ_of_le h))
      rw [if_neg hki, zero_mul]
  rw [hcut, forwardSol_row (fun i k => T.stored i k) _ (i : Nat) (hdiag i i.isLt)]
  by_cases hij : i = j
  · rw [if_pos hij, if_pos (congrArg Fin.val hij)]
  · rw [if_neg hij, if_neg (fun h => hij (Fin.ext h))]

/-- Both paths of `Invert` on a non-empty matrix store the packed lower
triangle of the column-wise forward-substitution solution against the identity. -/
theorem Invert_ok {K : Type} [Field K] (enabled : Bool) (T : CuTpMatrix K) :
    CuTpMatrix.Invert enabled T
      = .ok (if T.num_rows_ = 0 then T else
          { T with
            data_ := packLower
              (fun r c =>
                forwardSol (fun i k => T.stored i k) (fun i => if i = c then 1 else 0) r)
              T.num_rows_ }) := by
  cases enabled
  · simp only [CuTpMatrix.Invert, Bool.false_eq_true, if_false, TpMatrix.Invert]
  · by_cases h0 : T.num_rows_ = 0
    · simp only [CuTpMatrix.Invert, if_true, h0]
    · simp only [CuTpMatrix.Invert, if_true, h0, if_false]
      rw [CopyFromMat_ok true T _ MatrixTransposeType.kNoTrans rfl rfl, if_neg h0]
      congr 2
      apply packLower_congr
      intro r c hcr hrn
      have hcn : c < T.num_rows_ := lt_of_le_of_lt hcr hrn
      simp only [CuMatrixBase.triangleEntry, cublas_trsm, hrn, hcn, and_self, if_true,
        CuMatrixBase.CopyFromTp, cuda_set_diag, CuMatrix.zero, one_mul]
      apply forwardSol_congr
      · intro i k hki _
        rw [if_pos hki]
      · intro i _
        rfl

/-! ## Helper lemmas: Cholesky factorisation -/

/-- Reading inside a buffer is not affected by entries appended later. -/
theorem getD_of_append {K : Type} (l l1 : List K) (d : K) (p : Nat)
    (h : ∃ t, l1 = l ++ t) (hp : p < l.length) : l1.getD p d = l.getD p d := by
  obtain ⟨t, rfl⟩ := h
  exact List.getD_append _ _ _ _ hp

/-- Each step of a row appends one entry to the buffer. -/
theorem length_choleskyRow {K : Type} [Field K] (a : Nat → Nat → K) (j : Nat)
    (buf0 : List K) (k : Nat) : (choleskyRow a j buf0 k).length = buf0.length + k := by
  induction k with
  | zero => rfl
  | succ k ih =>
    simp only [choleskyRow, List.length_append, ih, List.length_singleton]
    rfl

/-- After `j` rows the buffer holds `j (j+1) / 2` entries. -/
theorem length_choleskyBuf {K : Type} [Field K] (sqrt : K → K) (a : Nat → Nat → K) (j : Nat) :
    (choleskyBuf sqrt a j).length = j * (j + 1) / 2 := by
  induction j with
  | zero => rfl
  | succ j ih =>
    simp only [choleskyBuf, List.length_append, length_choleskyRow, ih, List.length_singleton]
    rw [tri_succ]
    rfl

/-- One step of a row appends a single entry. -/
theorem choleskyRow_succ {K : Type} [Field K] (a : Nat → Nat → K) (j : Nat)
    (buf0 : List K) (k : Nat) :
    ∃ x, choleskyRow a j buf0 (k + 1) = choleskyRow a j buf0 k ++ [x] :=
  ⟨_, rfl⟩

/-- Completing a row appends its diagonal entry. -/
theorem choleskyBuf_succ {K : Type} [Field K] (sqrt : K → K) (a : Nat → Nat → K) (j : Nat) :
    ∃ x, choleskyBuf sqrt a (j + 1)
      = choleskyRow a j (choleskyBuf sqrt a j) j ++ [x] :=
  ⟨_, rfl⟩

/-- Later steps of a row only append to the buffer. -/
theorem choleskyRow_append {K : Type} [Field K] (a : Nat → Nat → K) (j : Nat)
    (buf0 : List K) {k k1 : Nat} (h : k ≤ k1) :
    ∃ t, choleskyRow a j buf0 k1 = choleskyRow a j buf0 k ++ t := by
  induction k1 with
  | zero =>
    have : k = 0 := Nat.le_zero.mp h
    subst this
    exact ⟨[], (List.append_nil _).symm⟩
  | succ k1 ih =>
    rcases Nat.le_succ_iff.mp h with hle | heq
    · obtain ⟨t, ht⟩ := ih hle
      obtain ⟨x, hx⟩ := choleskyRow_succ a j buf0 k1
      exact ⟨t ++ [x], by rw [hx, ht, List.append_assoc]⟩
    · subst heq
      exact ⟨[], (List.append_nil _).symm⟩

/-- Later rows only append to the buffer. -/
theorem choleskyBuf_append {K : Type} [Field K] (sqrt : K → K) (a : Nat → Nat → K)
    {j j1 : Nat} (h : j ≤ j1) :
    ∃ t, choleskyBuf sqrt a j1 = choleskyBuf sqrt a j ++ t := by
  induction j1 with
  | zero =>
    have : j = 0 := Nat.le_zero.mp h
    subst this
    exact ⟨[], (List.append_nil _).symm⟩
  | succ j1 ih =>
    rcases Nat.le_succ_iff.mp h with hle | heq
    · obtain ⟨t, ht⟩ := ih hle
      obtain ⟨t1, ht1⟩ := choleskyRow_append a j1 (choleskyBuf sqrt a j1) (Nat.zero_le j1)
      obtain ⟨x, hx⟩ := choleskyBuf_succ sqrt a j1
      refine ⟨t ++ t1 ++ [x], ?_⟩
      rw [hx, ht1]
      simp only [choleskyRow]
      rw [ht, List.append_assoc, List.append_assoc, List.append_assoc]
    · subst heq
      exact ⟨[], (List.append_nil _).symm⟩

/-- Every later stage of the buffer holds the factor's entry at its packed position. -/
theorem getD_choleskyBuf {K : Type} [Field K] (sqrt : K → K) (a : Nat → Nat → K)
    {n r c : Nat} (hc : c ≤ r) (hr : r < n) :
    (choleskyBuf sqrt a n).getD (r * (r + 1) / 2 + c) 0 = choleskyEntry sqrt a r c := by
  unfold choleskyEntry
  apply getD_of_append _ _ _ _ (choleskyBuf_append sqrt a (Nat.succ_le_of_lt hr))
  rw [length_choleskyBuf, tri_succ]
  omega

/-- While row `j` is being written, the entries already written are those of the factor. -/
theorem getD_choleskyRow_cur {K : Type} [Field K] (sqrt : K → K) (a : Nat → Nat → K)
    {j k m : Nat} (hk : k ≤ j) (hm : m < k) :
    (choleskyRow a j (choleskyBuf sqrt a j) k).getD (j * (j + 1) / 2 + m) 0
      = choleskyEntry sqrt a j m := by
  unfold choleskyEntry
  symm
  apply getD_of_append
  · obtain ⟨t, ht⟩ := choleskyRow_append a j (choleskyBuf sqrt a j) hk
    obtain ⟨x, hx⟩ := choleskyBuf_succ sqrt a j
    exact ⟨t ++ [x], by rw [hx, ht, List.append_assoc]⟩
  · rw [length_choleskyRow, length_choleskyBuf]
    omega

/-- While row `j` is being written, the rows above are those of the factor. -/
theorem getD_choleskyRow_above {K : Type} [Field K] (sqrt : K → K) (a : Nat → Nat → K)
    {j k r c : Nat} (hc : c ≤ r) (hr : r < j) :
    (choleskyRow a j (choleskyBuf sqrt a j) k).getD (r * (r + 1) / 2 + c) 0
      = choleskyEntry sqrt a r c := by
  rw [← getD_choleskyBuf sqrt a hc hr]
  apply getD_of_append
  · exact choleskyRow_append a j (choleskyBuf sqrt a j) (Nat.zero_le k)
  · rw [length_choleskyBuf]
    have h1 := tri_succ r
    have h2 : (r + 1) * (r + 1 + 1) / 2 ≤ j * (j + 1) / 2 := tri_mono hr
    omega

/-- The recurrence for an entry below the diagonal. -/
theorem choleskyEntry_offdiag {K : Type} [Field K] (sqrt : K → K) (a : Nat → Nat → K)
    {j k : Nat} (hk : k < j) :
    choleskyEntry sqrt a j k
      = (a j k - ∑ m in Finset.range k, choleskyEntry sqrt a j m * choleskyEntry sqrt a k m)
          / choleskyEntry sqrt a k k := by
  rw [← getD_choleskyRow_cur sqrt a (Nat.succ_le_of_lt hk) (Nat.lt_succ_self k)]
  have hlen : (choleskyRow a j (choleskyBuf sqrt a j) k).length ≤ j * (j + 1) / 2 + k := by
    rw [length_choleskyRow, length_choleskyBuf]
  simp only [choleskyRow]
  rw [List.getD_append_right _ _ _ _ hlen, length_choleskyRow, length_choleskyBuf, Nat.sub_self]
  simp only [List.getD_cons_zero]
  rw [getD_choleskyRow_above sqrt a (le_refl k) hk]
  congr 2
  refine Finset.sum_congr rfl (fun m hm => ?_)
  have hmk : m < k := Finset.mem_range.mp hm
  rw [getD_choleskyRow_cur sqrt a hk.le hmk, getD_choleskyRow_above sqrt a hmk.le hk]

/-- The recurrence for a diagonal entry. -/
theorem choleskyEntry_diag {K : Type} [Field K] (sqrt : K → K) (a : Nat → Nat → K) (j : Nat) :
    choleskyEntry sqrt a j j
      = sqrt (a j j - ∑ m in Finset.range j, choleskyEntry sqrt a j m ^ 2) := by
  have hlen : (choleskyRow a j (choleskyBuf sqrt a j) j).length ≤ j * (j + 1) / 2 + j := by
    rw [length_choleskyRow, length_choleskyBuf]
  unfold choleskyEntry
  simp only [choleskyBuf]
  rw [List.getD_append_right _ _ _ _ hlen, length_choleskyRow, length_choleskyBuf, Nat.sub_self]
  simp only [List.getD_cons_zero]
  congr 2
  refine Finset.sum_congr rfl (fun m hm => ?_)
  rw [getD_choleskyRow_cur sqrt a (le_refl j) (Finset.mem_range.mp hm)]
  rfl

/-- The algorithm reads the lower triangle of `a` only. -/
theorem choleskyRow_congr {K : Type} [Field K] (a a1 : Nat → Nat → K) (j : Nat)
    (buf0 : List K) (k : Nat) (ha : ∀ c, c < k → a j c = a1 j c) :
    choleskyRow a j buf0 k = choleskyRow a1 j buf0 k := by
  induction k with
  | zero => rfl
  | succ k ih =>
    simp only [choleskyRow]
    rw [ih (fun c hc => ha c (Nat.lt_succ_of_lt hc)), ha k (Nat.lt_succ_self k)]

/-- The factorisation reads the lower triangle of `a` only. -/
theorem choleskyBuf_congr {K : Type} [Field K] (sqrt : K → K) (a a1 : Nat → Nat → K)
    (n : Nat) (ha : ∀ r c, c ≤ r → r < n → a r c = a1 r c) :
    choleskyBuf sqrt a n = choleskyBuf sqrt a1 n := by
  induction n with
  | zero => rfl
  | succ n ih =>
    simp only [choleskyBuf]
    rw [ih (fun r c hc hr => ha r c hc (Nat.lt_succ_of_lt hr)),
      choleskyRow_congr a a1 n _ n (fun c hc => ha n c hc.le (Nat.lt_succ_self n)),
      ha n n (le_refl n) (Nat.lt_succ_self n)]

/-- An entry of the factor depends on the lower triangle of the rows up to its own. -/
theorem choleskyEntry_congr {K : Type} [Field K] (sqrt : K → K) (a a1 : Nat → Nat → K)
    (r c : Nat) (ha : ∀ i k, k ≤ i → i ≤ r → a i k = a1 i k) :
    choleskyEntry sqrt a r c = choleskyEntry sqrt a1 r c := by
  unfold choleskyEntry
  rw [choleskyBuf_congr sqrt a a1 (r + 1) (fun i k hk hi => ha i k hk (Nat.lt_succ_iff.mp hi))]

/-- The packed buffer is the packed lower triangle of the factor's entries. -/
theorem choleskyBuf_eq_packLower {K : Type} [Field K] (sqrt : K → K) (a : Nat → Nat → K)
    (n : Nat) : choleskyBuf sqrt a n = packLower (choleskyEntry sqrt a) n := by
  induction n with
  | zero => rfl
  | succ n ih =>
    apply List.ext_getElem
    · rw [length_choleskyBuf, length_packLower]
    · intro p h1 h2
      have hlen : p < (n + 1) * (n + 1 + 1) / 2 := by rw [← length_choleskyBuf sqrt a]; exact h1
      rw [← List.getD_eq_getElem _ 0 h1, ← List.getD_eq_getElem _ 0 h2]
      rw [tri_succ] at hlen
      by_cases hp : p < n * (n + 1) / 2
      · have e1 : (choleskyBuf sqrt a (n + 1)).getD p 0 = (choleskyBuf sqrt a n).getD p 0 :=
          getD_of_append _ _ _ _ (choleskyBuf_append sqrt a (Nat.le_succ n))
            (by rw [length_choleskyBuf]; exact hp)
        have e2 : (packLower (choleskyEntry sqrt a) (n + 1)).getD p 0
            = (packLower (choleskyEntry sqrt a) n).getD p 0 := by
          simp only [packLower]
          exact List.getD_append _ _ _ _ (by rw [length_packLower]; exact hp)
        rw [e1, e2, ih]
      · obtain ⟨c, hc⟩ : ∃ c, p = n * (n + 1) / 2 + c := ⟨p - n * (n + 1) / 2, by omega⟩
        subst hc
        have hcn : c ≤ n := by omega
        rw [getD_choleskyBuf sqrt a hcn (Nat.lt_succ_self n),
          getD_packLower _ 0 hcn (Nat.lt_succ_self n)]

/-- An upper-triangular system (the transpose of a lower-triangular `B` with
non-zero diagonal) has a solution. -/
theorem exists_backSubst (B : Nat → Nat → ℝ) (j : Nat)
    (hz : ∀ k m, k < m → B k m = 0) (hd : ∀ m, m < j → B m m ≠ 0) (c : Nat → ℝ) :
    ∃ w : Nat → ℝ, ∀ m, m < j → ∑ k in Finset.range j, B k m * w k = c m := by
  induction j generalizing c with
  | zero => exact ⟨fun _ => 0, fun m hm => absurd hm (Nat.not_lt_zero m)⟩
  | succ j ih =>
    obtain ⟨w1, hw1⟩ := ih (fun m hm => hd m (Nat.lt_succ_of_lt hm))
      (fun m => c m - B j m * (c j / B j j))
    refine ⟨fun k => if k = j then c j / B j j else w1 k, ?_⟩
    intro m hm
    have hs : ∑ k in Finset.range j, B k m * (if k = j then c j / B j j else w1 k)
        = ∑ k in Finset.range j, B k m * w1 k :=
      Finset.sum_congr rfl
        (fun k hk => by rw [if_neg (Nat.ne_of_lt (Finset.mem_range.mp hk))])
    rw [Finset.sum_range_succ, hs]
    simp only [↓reduceIte]
    rcases Nat.lt_succ_iff_lt_or_eq.mp hm with hlt | heq
    · rw [hw1 m hlt]
      ring
    · subst heq
      have h0 : ∑ k in Finset.range m, B k m * w1 k = 0 :=
        Finset.sum_eq_zero
          (fun k hk => by rw [hz k m (Finset.mem_range.mp hk), zero_mul])
      rw [h0, zero_add, mul_div_cancel₀ _ (hd m (Nat.lt_succ_self m))]

/-- The quadratic form of a Gram matrix is a sum of squares. -/
theorem quad_gram (N J : Nat) (v : Nat → ℝ) (B : Nat → Nat → ℝ) :
    ∑ p in Finset.range N, ∑ q in Finset.range N,
        v p * (∑ m in Finset.range J, B p m * B q m) * v q
      = ∑ m in Finset.range J, (∑ p in Finset.range N, v p * B p m) ^ 2 := by
  have h1 : ∀ p q, v p * (∑ m in Finset.range J, B p m * B q m) * v q
      = ∑ m in Finset.range J, (v p * B p m) * (v q * B q m) := by
    intro p q
    rw [Finset.mul_sum, Finset.sum_mul]
    exact Finset.sum_congr rfl (fun m _ => by ring)
  have h2 : ∀ m, (∑ p in Finset.range N, v p * B p m) ^ 2
      = ∑ p in Finset.range N, ∑ q in Finset.range N, (v p * B p m) * (v q * B q m) := by
    intro m
    rw [sq, Finset.sum_mul_sum]
  simp only [h1, h2]
  calc ∑ p in Finset.range N, ∑ q in Finset.range N, ∑ m in Finset.range J,
          (v p * B p m) * (v q * B q m)
      = ∑ p in Finset.range N, ∑ m in Finset.range J, ∑ q in Finset.range N,
          (v p * B p m) * (v q * B q m) :=
        Finset.sum_congr rfl (fun p _ => Finset.sum_comm)
    _ = ∑ m in Finset.range J, ∑ p in Finset.range N, ∑ q in Finset.range N,
          (v p * B p m) * (v q * B q m) := Finset.sum_comm

/-- The quadratic form of `a` at a vector supported on `[0, j]`, with last
component 1 and orthogonal to the first `j` columns of the factor, is the
`j`-th pivot. -/
theorem quad_eq_pivot (n j : Nat) (hj : j < n) (a B : Nat → Nat → ℝ) (v : Nat → ℝ) (d : ℝ)
    (hv0 : ∀ p, j < p → v p = 0) (hvj : v j = 1)
    (hG : ∀ p q, p ≤ j → q ≤ j → ¬ (p = j ∧ q = j) →
      a p q = ∑ m in Finset.range j, B p m * B q m)
    (hd : a j j = (∑ m in Finset.range j, B j m * B j m) + d)
    (hker : ∀ m, m < j → ∑ p in Finset.range (j + 1), v p * B p m = 0) :
    ∑ p in Finset.range n, ∑ q in Finset.range n, v p * a p q * v q = d := by
  have hsub : Finset.range (j + 1) ⊆ Finset.range n :=
    Finset.range_subset.mpr (Nat.succ_le_of_lt hj)
  have hout : ∀ p, p ∈ Finset.range n → p ∉ Finset.range (j + 1) → v p = 0 := by
    intro p _ hp
    apply hv0
    by_contra hcon
    exact hp (Finset.mem_range.mpr (Nat.lt_succ_of_le (Nat.le_of_not_lt hcon)))
  have hinner : ∀ p, ∑ q in Finset.range n, v p * a p q * v q
      = ∑ q in Finset.range (j + 1), v p * a p q * v q := by
    intro p
    symm
    apply Finset.sum_subset hsub
    intro q hq hq1
    rw [hout q hq hq1, mul_zero]
  have houter : ∑ p in Finset.range n, ∑ q in Finset.range n, v p * a p q * v q
      = ∑ p in Finset.range (j + 1), ∑ q in Finset.range (j + 1), v p * a p q * v q := by
    simp only [hinner]
    symm
    apply Finset.sum_subset hsub
    intro p hp hp1
    apply Finset.sum_eq_zero
    intro q _
    rw [hout p hp hp1, zero_mul, zero_mul]
  have hterm : ∀ p, p ∈ Finset.range (j + 1) → ∀ q, q ∈ Finset.range (j + 1) →
      v p * a p q * v q
        = v p * (∑ m in Finset.range j, B p m * B q m) * v q
          + (if p = j then (if q = j then d else 0) else 0) := by
    intro p hp q hq
    have hpj : p ≤ j := Nat.lt_succ_iff.mp (Finset.mem_range.mp hp)
    have hqj : q ≤ j := Nat.lt_succ_iff.mp (Finset.mem_range.mp hq)
    by_cases h1 : p = j
    · by_cases h2 : q = j
      · subst h1
        subst h2
        rw [if_pos rfl, if_pos rfl, hd, hvj]
        ring
      · rw [if_pos h1, if_neg h2, add_zero, hG p q hpj hqj (fun h => h2 h.2)]
    · rw [if_neg h1, add_zero, hG p q hpj hqj (fun h => h1 h.1)]
  have hind : ∑ p in Finset.range (j + 1), ∑ q in Finset.range (j + 1),
      (if p = j then (if q = j then d else 0) else 0) = d := by
    rw [Finset.sum_eq_single j]
    · simp only [↓reduceIte]
      rw [Finset.sum_eq_single j]
      · rw [if_pos rfl]
      · intro q _ hq
        rw [if_neg hq]
      · intro h
        exact absurd (Finset.mem_range.mpr (Nat.lt_succ_self j)) h
    · intro p _ hp
      simp only [hp, ↓reduceIte, Finset.sum_const_zero]
    · intro h
      exact absurd (Finset.mem_range.mpr (Nat.lt_succ_self j)) h
  rw [houter]
  rw [Finset.sum_congr rfl (fun p hp => Finset.sum_congr rfl (fun q hq => hterm p hp q hq))]
  simp only [Finset.sum_add_distrib]
  rw [quad_gram, hind]
  have hz : ∑ m in Finset.range j, (∑ p in Finset.range (j + 1), v p * B p m) ^ 2 = 0 :=
    Finset.sum_eq_zero (fun m hm => by rw [hker m (Finset.mem_range.mp hm)]; ring)
  rw [hz, zero_add]

/-- With non-zero pivots above row `j0`, the rows of the factor reproduce the
entries `a p q`, `q ≤ p`, `q < j0`. -/
theorem gram_of_pivots {K : Type} [Field K] (sqrt : K → K) (a : Nat → Nat → K) (j0 : Nat)
    (hpiv : ∀ k, k < j0 → choleskyEntry sqrt a k k ≠ 0)
    (hsq : ∀ k, k < j0 → choleskyEntry sqrt a k k ^ 2
      = a k k - ∑ m in Finset.range k, choleskyEntry sqrt a k m ^ 2)
    (p q N : Nat) (hqp : q ≤ p) (hq : q < j0) (hN : q < N) :
    ∑ m in Finset.range N, choleskyLower sqrt a p m * choleskyLower sqrt a q m = a p q := by
  have hcut : ∑ m in Finset.range N, choleskyLower sqrt a p m * choleskyLower sqrt a q m
      = ∑ m in Finset.range (q + 1), choleskyEntry sqrt a p m * choleskyEntry sqrt a q m := by
    rw [← Finset.sum_subset (Finset.range_subset.mpr (Nat.succ_le_of_lt hN))]
    · refine Finset.sum_congr rfl (fun m hm => ?_)
      have hmq : m ≤ q := Nat.lt_succ_iff.mp (Finset.mem_range.mp hm)
      unfold choleskyLower
      rw [if_pos hmq, if_pos (le_trans hmq hqp)]
    · intro m _ hm
      have hmq : ¬ m ≤ q := fun h => hm (Finset.mem_range.mpr (Nat.lt_succ_of_le h))
      unfold choleskyLower
      rw [if_neg hmq, mul_zero]
  rw [hcut, Finset.sum_range_succ]
  rcases Nat.eq_or_lt_of_le hqp with heq | hlt
  · subst heq
    have hS : ∑ m in Finset.range q, choleskyEntry sqrt a q m * choleskyEntry sqrt a q m
        = ∑ m in Finset.range q, choleskyEntry sqrt a q m ^ 2 :=
      Finset.sum_congr rfl (fun m _ => (sq _).symm)
    rw [hS]
    linear_combination hsq q hq
  · rw [choleskyEntry_offdiag sqrt a hlt, div_mul_cancel₀ _ (hpiv q hq)]
    ring

/-- For a symmetric positive-definite `a` every pivot of the factorisation is
positive, so every square root is taken of a positive number. -/
theorem choleskyPivot_pos (a : Nat → Nat → ℝ) (n : Nat)
    (hsym : ∀ p q, p < n → q < n → a p q = a q p)
    (hpd : ∀ v : Nat → ℝ, (∃ p, p < n ∧ v p ≠ 0) →
      0 < ∑ p in Finset.range n, ∑ q in Finset.range n, v p * a p q * v q)
    (j : Nat) (hj : j < n) :
    0 < a j j - ∑ m in Finset.range j, choleskyEntry Real.sqrt a j m ^ 2 := by
  induction j using Nat.strong_induction_on with
  | _ j ih =>
    have hpos : ∀ k, k < j →
        0 < a k k - ∑ m in Finset.range k, choleskyEntry Real.sqrt a k m ^ 2 :=
      fun k hk => ih k hk (lt_trans hk hj)
    have hpiv : ∀ k, k < j → choleskyEntry Real.sqrt a k k ≠ 0 := by
      intro k hk
      rw [choleskyEntry_diag]
      exact ne_of_gt (Real.sqrt_pos.mpr (hpos k hk))
    have hsq : ∀ k, k < j → choleskyEntry Real.sqrt a k k ^ 2
        = a k k - ∑ m in Finset.range k, choleskyEntry Real.sqrt a k m ^ 2 := by
      intro k hk
      rw [choleskyEntry_diag]
      exact Real.sq_sqrt (le_of_lt (hpos k hk))
    have hz : ∀ k m, k < m → choleskyLower Real.sqrt a k m = 0 := by
      intro k m hkm
      unfold choleskyLower
      rw [if_neg (Nat.not_le_of_lt hkm)]
    have hdg : ∀ m, m < j → choleskyLower Real.sqrt a m m ≠ 0 := by
      intro m hm
      unfold choleskyLower
      rw [if_pos (le_refl m)]
      exact hpiv m hm
    obtain ⟨w, hw⟩ := exists_backSubst (choleskyLower Real.sqrt a) j hz hdg
      (fun m => choleskyLower Real.sqrt a j m)
    have hv0 : ∀ p, j < p → (if p < j then -(w p) else if p = j then 1 else 0) = (0 : ℝ) := by
      intro p hp
      rw [if_neg (Nat.lt_asymm hp), if_neg (Nat.ne_of_gt hp)]
    have hvj : (if j < j then -(w j) else if j = j then 1 else 0) = (1 : ℝ) := by
      rw [if_neg (Nat.lt_irrefl j), if_pos rfl]
    have hG : ∀ p q, p ≤ j → q ≤ j → ¬ (p = j ∧ q = j) →
        a p q = ∑ m in Finset.range j,
          choleskyLower Real.sqrt a p m * choleskyLower Real.sqrt a q m := by
      intro p q hp hq hne
      rcases Nat.le_total q p with hqp | hpq
      · have hqj : q < j := by
          rcases Nat.eq_or_lt_of_le hq with h | h
          · exact absurd ⟨Nat.le_antisymm hp (h ▸ hqp), h⟩ hne
          · exact h
        exact (gram_of_pivots Real.sqrt a j hpiv hsq p q j hqp hqj hqj).symm
      · have hpj : p < j := by
          rcases Nat.eq_or_lt_of_le hp with h | h
          · exact absurd ⟨h, Nat.le_antisymm hq (h ▸ hpq)⟩ hne
          · exact h
        rw [hsym p q (lt_of_le_of_lt hp hj) (lt_of_le_of_lt hq hj),
          ← gram_of_pivots Real.sqrt a j hpiv hsq q p j hpq hpj hpj]
        exact Finset.sum_congr rfl (fun m _ => mul_comm _ _)
    have hd : a j j = (∑ m in Finset.range j,
          choleskyLower Real.sqrt a j m * choleskyLower Real.sqrt a j m)
        + (a j j - ∑ m in Finset.range j, choleskyEntry Real.sqrt a j m ^ 2) := by
      have hS : ∑ m in Finset.range j,
            choleskyLower Real.sqrt a j m * choleskyLower Real.sqrt a j m
          = ∑ m in Finset.range j, choleskyEntry Real.sqrt a j m ^ 2 := by
        refine Finset.sum_congr rfl (fun m hm => ?_)
        unfold choleskyLower
        rw [if_pos (Finset.mem_range.mp hm).le, sq]
      rw [hS]
      ring
    have hker : ∀ m, m < j →
        ∑ p in Finset.range (j + 1),
          (if p < j then -(w p) else if p = j then 1 else 0) * choleskyLower Real.sqrt a p m
          = 0 := by
      intro m hm
      rw [Finset.sum_range_succ, hvj, one_mul]
      have hS : ∑ p in Finset.range j,
            (if p < j then -(w p) else if p = j then 1 else 0) * choleskyLower Real.sqrt a p m
          = -(∑ p in Finset.range j, choleskyLower Real.sqrt a p m * w p) := by
        rw [← Finset.sum_neg_distrib]
        refine Finset.sum_congr rfl (fun p hp => ?_)
        rw [if_pos (Finset.mem_range.mp hp)]
        ring
      rw [hS, hw m hm]
      ring
    have hQ := hpd (fun p => if p < j then -(w p) else if p = j then 1 else 0)
      ⟨j, hj, by show (if j < j then -(w j) else if j = j then 1 else 0) ≠ (0 : ℝ); rw [hvj]; exact one_ne_zero⟩
    rw [quad_eq_pivot n j hj a (choleskyLower Real.sqrt a) _ _ hv0 hvj hG hd hker] at hQ
    exact hQ

/-- For a symmetric positive-definite `a` the computed factor satisfies
`L L^T = a` on `[0, n)`. -/
theorem cholesky_gram (a : Nat → Nat → ℝ) (n : Nat)
    (hsym : ∀ p q, p < n → q < n → a p q = a q p)
    (hpd : ∀ v : Nat → ℝ, (∃ p, p < n ∧ v p ≠ 0) →
      0 < ∑ p in Finset.range n, ∑ q in Finset.range n, v p * a p q * v q)
    (i j : Nat) (hi : i < n) (hj : j < n) :
    ∑ m in Finset.range n, choleskyLower Real.sqrt a i m * choleskyLower Real.sqrt a j m
      = a i j := by
  have hpos := choleskyPivot_pos a n hsym hpd
  have hpiv : ∀ k, k < n → choleskyEntry Real.sqrt a k k ≠ 0 := by
    intro k hk
    rw [choleskyEntry_diag]
    exact ne_of_gt (Real.sqrt_pos.mpr (hpos k hk))
  have hsq : ∀ k, k < n → choleskyEntry Real.sqrt a k k ^ 2
      = a k k - ∑ m in Finset.range k, choleskyEntry Real.sqrt a k m ^ 2 := by
    intro k hk
    rw [choleskyEntry_diag]
    exact Real.sq_sqrt (le_of_lt (hpos k hk))
  rcases Nat.le_total j i with hji | hij
  · exact gram_of_pivots Real.sqrt a n hpiv hsq i j n hji hj hj
  · rw [hsym i j hi hj, ← gram_of_pivots Real.sqrt a n hpiv hsq j i n hij hi hi]
    exact Finset.sum_congr rfl (fun m _ => mul_comm _ _)

/-- Positive definiteness of the full matrix, as a statement about sums over
index ranges. -/
theorem posDef_range (A : CuSpMatrix ℝ) (n : Nat) (hpd : (A.toFull n).PosDef)
    (v : Nat → ℝ) (hv : ∃ p, p < n ∧ v p ≠ 0) :
    0 < ∑ p in Finset.range n, ∑ q in Finset.range n, v p * A.entry p q * v q := by
  obtain ⟨p, hp, hvp⟩ := hv
  have hx : (fun i : Fin n => v i) ≠ 0 := by
    intro h
    exact hvp (congrFun h ⟨p, hp⟩)
  have h := hpd.2 _ hx
  have key : Matrix.dotProduct (star (fun i : Fin n => v i))
        (Matrix.mulVec (A.toFull n) (fun i : Fin n => v i))
      = ∑ p in Finset.range n, ∑ q in Finset.range n, v p * A.entry p q * v q := by
    rw [Finset.sum_range]
    unfold Matrix.dotProduct Matrix.mulVec Matrix.dotProduct
    refine Finset.sum_congr rfl (fun i _ => ?_)
    rw [Finset.sum_range, Finset.mul_sum]
    refine Finset.sum_congr rfl (fun j _ => ?_)
    simp only [Pi.star_apply, star_trivial, CuSpMatrix.toFull]
    ring
  rw [key] at h
  exact h

/-- The logical entries of a packed symmetric matrix are symmetric. -/
theorem entry_symm {K : Type} [Zero K] (A : CuSpMatrix K) (p q : Nat) :
    A.entry p q = A.entry q p := by
  unfold CuSpMatrix.entry
  rw [max_comm, min_comm]

/-- On the lower triangle the logical entry is the stored entry. -/
theorem entry_eq_stored {K : Type} [Zero K] (A : CuSpMatrix K) {r c : Nat} (h : c ≤ r) :
    A.entry r c = A.stored r c := by
  unfold CuSpMatrix.entry
  rw [max_eq_left h, min_eq_right h]

/-- Dimension mismatch on either path of `Cholesky`. -/
theorem Cholesky_error {K : Type} [Field K] (sqrt : K → K) (enabled : Bool)
    (T : CuTpMatrix K) (orig : CuSpMatrix K) (hdim : orig.num_rows_ ≠ T.num_rows_) :
    CuTpMatrix.Cholesky sqrt enabled T orig = .error KaldiError.DimensionMismatch := by
  cases enabled
  · simp only [CuTpMatrix.Cholesky, Bool.false_eq_true, if_false, TpMatrix.Cholesky, hdim,
      ne_eq, not_false_eq_true, if_true]
  · simp only [CuTpMatrix.Cholesky, if_true]
    apply CopyFromMat_error
    intro h
    exact hdim h.1

/-- The full matrix of a packed symmetric matrix is symmetric. -/
theorem toFull_isHermitian (A : CuSpMatrix ℝ) (n : Nat) : (A.toFull n).IsHermitian := by
  unfold Matrix.IsHermitian
  ext i j
  simp only [Matrix.conjTranspose_apply, star_trivial, CuSpMatrix.toFull]
  exact entry_symm A j i

/-- The example matrix `[[4, 2], [2, 3]]` is positive definite. -/
theorem exampleSpd_posDef : (exampleSpd.toFull 2).PosDef := by
  refine ⟨toFull_isHermitian _ _, ?_⟩
  intro x hx
  have hx1 : x 0 ≠ 0 ∨ x 1 ≠ 0 := by
    by_contra h
    push_neg at h
    apply hx
    ext i
    fin_cases i
    · exact h.1
    · exact h.2
  have e : Matrix.dotProduct (star x) (Matrix.mulVec (exampleSpd.toFull 2) x)
      = (2 * x 0 + x 1) ^ 2 + 2 * (x 1) ^ 2 := by
    simp [Matrix.dotProduct, Matrix.mulVec, Fin.sum_univ_two, CuSpMatrix.toFull,
      CuSpMatrix.entry, CuPackedMatrix.stored, exampleSpd]
    ring
  rw [e]
  rcases hx1 with h | h
  · by_cases h1 : x 1 = 0
    · rw [h1]
      have : 0 < (x 0) ^ 2 := by positivity
      nlinarith
    · have : 0 < (x 1) ^ 2 := by positivity
      nlinarith [sq_nonneg (2 * x 0 + x 1)]
  · have : 0 < (x 1) ^ 2 := by positivity
    nlinarith [sq_nonneg (2 * x 0 + x 1)]

/-- The Cholesky factor of `[[4, 2], [2, 3]]` in packed form. -/
theorem choleskyBuf_exampleSpd :
    choleskyBuf Real.sqrt (fun r c => exampleSpd.entry r c) 2 = [2, 1, Real.sqrt 2] := by
  have h4 : Real.sqrt 4 = 2 := by
    rw [show (4 : ℝ) = 2 ^ 2 by norm_num, Real.sqrt_sq (by norm_num)]
  have h2 : (3 : ℝ) - 1 = 2 := by norm_num
  simp [choleskyBuf, choleskyRow, CuSpMatrix.entry, CuPackedMatrix.stored, exampleSpd,
    Finset.sum_range_succ, h4, h2]

/-- The host path of `Cholesky` on operands of equal dimension. -/
theorem Cholesky_host_ok {K : Type} [Field K] (sqrt : K → K)
    (T : CuTpMatrix K) (orig : CuSpMatrix K) (hdim : orig.num_rows_ = T.num_rows_) :
    CuTpMatrix.Cholesky sqrt false T orig
      = .ok { T with
          data_ := choleskyBuf sqrt (fun r c => orig.entry r c) T.num_rows_ } := by
  simp only [CuTpMatrix.Cholesky, Bool.false_eq_true, if_false, TpMatrix.Cholesky, hdim,
    ne_eq, not_true_eq_false]
  rw [choleskyBuf_congr sqrt (fun r c => orig.stored r c) (fun r c => orig.entry r c)
    T.num_rows_ (fun r c hc _ => (entry_eq_stored orig hc).symm)]

/-- The accelerator path of `Cholesky` on operands of equal dimension. -/
theorem Cholesky_device_ok {K : Type} [Field K] (sqrt : K → K)
    (T : CuTpMatrix K) (orig : CuSpMatrix K) (hdim : orig.num_rows_ = T.num_rows_) :
    CuTpMatrix.Cholesky sqrt true T orig
      = .ok (if T.num_rows_ = 0 then T else
          { T with
            data_ := choleskyBuf sqrt (fun r c => orig.entry r c) T.num_rows_ }) := by
  simp only [CuTpMatrix.Cholesky, if_true]
  rw [CopyFromMat_ok true T _ MatrixTransposeType.kNoTrans hdim hdim]
  by_cases h0 : T.num_rows_ = 0
  · rw [if_pos h0, if_pos h0]
  · rw [if_neg h0, if_neg h0, choleskyBuf_eq_packLower]
    congr 2
    apply packLower_congr
    intro r c hcr _
    simp only [CuMatrixBase.triangleEntry, CuMatrixBase.Cholesky, CuMatrix.ofSp, hcr, if_true]

/-- Both paths of `Cholesky`, for operands of equal dimension and a receiver
whose buffer is empty when its dimension is 0, store the packed factor of the
symmetric matrix that `orig` represents. -/
theorem Cholesky_ok {K : Type} [Field K] (sqrt : K → K) (enabled : Bool)
    (T : CuTpMatrix K) (orig : CuSpMatrix K) (hdim : orig.num_rows_ = T.num_rows_)
    (hlen : T.num_rows_ = 0 → T.data_ = []) :
    CuTpMatrix.Cholesky sqrt enabled T orig
      = .ok { T with
          data_ := choleskyBuf sqrt (fun r c => orig.entry r c) T.num_rows_ } := by
  cases enabled
  · exact Cholesky_host_ok sqrt T orig hdim
  · rw [Cholesky_device_ok sqrt T orig hdim]
    by_cases h0 : T.num_rows_ = 0
    · rw [if_pos h0]
      have hd := hlen h0
      cases T with
      | mk nr dat =>
        simp only at h0 hd
        subst h0
        subst hd
        rfl
    · rw [if_neg h0]

/-- A packed matrix holding the factor's entries represents a lower-triangular
`L` with `L L^T` the symmetric positive-definite source. -/
theorem toLower_mul_transpose (source : CuSpMatrix ℝ) (n : Nat)
    (hpd : (source.toFull n).PosDef) (L : CuTpMatrix ℝ)
    (hL : ∀ r c, c ≤ r → r < n →
      L.stored r c = choleskyEntry Real.sqrt (fun i k => source.entry i k) r c) :
    L.toLower n * (L.toLower n).transpose = source.toFull n := by
  ext i j
  rw [Matrix.mul_apply]
  have hlow : ∀ (p m : Fin n), L.toLower n p m
      = choleskyLower Real.sqrt (fun i k => source.entry i k) p m := by
    intro p m
    unfold CuTpMatrix.toLower choleskyLower
    by_cases h : (m : Nat) ≤ (p : Nat)
    · rw [if_pos h, if_pos h, hL p m h p.isLt]
    · rw [if_neg h, if_neg h]
  have hsum : ∑ m : Fin n, L.toLower n i m * (L.toLower n).transpose m j
      = ∑ m in Finset.range n,
          choleskyLower Real.sqrt (fun i k => source.entry i k) i m
            * choleskyLower Real.sqrt (fun i k => source.entry i k) j m := by
    rw [Finset.sum_range]
    refine Finset.sum_congr rfl (fun m _ => ?_)
    rw [Matrix.transpose_apply, hlow i m, hlow j m]
  rw [hsum, cholesky_gram (fun i k => source.entry i k) n
    (fun p q _ _ => entry_symm source p q) (posDef_range source n hpd) i j i.isLt j.isLt]
  rfl

/-! ## Helper lemmas: the addressing map -/

/-- A canonical pair of a matrix of dimension `n` is stored inside the buffer. -/
theorem packedIndex_lt {n r c : Nat} (hc : c ≤ r) (hr : r < n) :
    r * (r + 1) / 2 + c < n * (n + 1) / 2 := by
  have h1 := tri_succ r
  have h2 : (r + 1) * (r + 1 + 1) / 2 ≤ n * (n + 1) / 2 := tri_mono hr
  omega

/-- An earlier row ends before a later row starts. -/
theorem packedIndex_lt_of_row_lt {r c r1 c1 : Nat} (hc : c ≤ r) (hrr : r < r1) :
    r * (r + 1) / 2 + c < r1 * (r1 + 1) / 2 + c1 := by
  have h1 := tri_succ r
  have h2 : (r + 1) * (r + 1 + 1) / 2 ≤ r1 * (r1 + 1) / 2 := tri_mono hrr
  omega

/-- Two canonical pairs with the same packed position are equal. -/
theorem packedIndex_inj {r c r1 c1 : Nat} (hc : c ≤ r) (hc1 : c1 ≤ r1)
    (h : r * (r + 1) / 2 + c = r1 * (r1 + 1) / 2 + c1) : r = r1 ∧ c = c1 := by
  rcases Nat.lt_trichotomy r r1 with hlt | heq | hgt
  · exact absurd h (Nat.ne_of_lt (packedIndex_lt_of_row_lt hc hlt))
  · subst heq
    exact ⟨rfl, Nat.add_left_cancel h⟩
  · exact absurd h.symm (Nat.ne_of_lt (packedIndex_lt_of_row_lt hc1 hgt))

/-- Every position of the buffer is the packed position of a canonical pair. -/
theorem packedIndex_surj {n p : Nat} (hp : p < n * (n + 1) / 2) :
    ∃ r c, c ≤ r ∧ r < n ∧ r * (r + 1) / 2 + c = p := by
  induction n with
  | zero => simp at hp
  | succ n ih =>
    by_cases h : p < n * (n + 1) / 2
    · obtain ⟨r, c, hc, hr, he⟩ := ih h
      exact ⟨r, c, hc, Nat.lt_succ_of_lt hr, he⟩
    · rw [tri_succ] at hp
      exact ⟨n, p - n * (n + 1) / 2, by omega, Nat.lt_succ_self n, by omega⟩

/-- A dimension without overflow of `r * (r+1)` is at most 46341. -/
theorem dim_le_of_no_overflow {n : Int}
    (hov : ∀ r : Int, 0 ≤ r → r < n → r * (r + 1) < 2 ^ 31) : n ≤ 46341 := by
  by_contra h
  have h1 := hov 46341 (by norm_num) (by omega)
  norm_num at h1

/-- The offset of a canonical pair, as a natural number. -/
theorem elementOffset_canonical {n : Int} (hn : n ≤ 46341) {r c : Nat}
    (hc : c ≤ r) (hr : (r : Int) < n) :
    CuSpMatrix.elementOffset n r c = .ok (((r * (r + 1) / 2 + c : Nat)) : Int) := by
  have hcr : (c : Int) ≤ (r : Int) := Int.ofNat_le.mpr hc
  rw [elementOffset_eq hn (Int.ofNat_nonneg r) hr (Int.ofNat_nonneg c) (by omega),
    max_eq_left hcr, min_eq_right hcr]
  push_cast
  rfl

/-- The offset of any in-range pair, as a natural number: the packed position
of its canonical form. -/
theorem elementOffset_nat {n : Int} (hn : n ≤ 46341) {r c : Nat}
    (hr : (r : Int) < n) (hc : (c : Int) < n) :
    CuSpMatrix.elementOffset n r c
      = .ok (((max r c * (max r c + 1) / 2 + min r c : Nat)) : Int) := by
  rw [elementOffset_eq hn (Int.ofNat_nonneg r) hr (Int.ofNat_nonneg c) hc]
  push_cast
  rfl

/-- The read/write overload returns the handle on the computed offset. -/
theorem operatorCall_of_offset {K : Type} (A : CuSpMatrix K) {r c off : Int}
    (h : CuSpMatrix.elementOffset A.num_rows_ r c = .ok off) :
    A.operatorCall r c = .ok ⟨off⟩ := by
  unfold CuSpMatrix.operatorCall
  rw [h]
  rfl

/-- The read-only overload reads the buffer at the computed offset. -/
theorem operatorCallConst_of_offset {K : Type} (A : CuSpMatrix K) {r c : Int} {p : Nat}
    (h : CuSpMatrix.elementOffset A.num_rows_ r c = .ok (p : Int)) :
    A.operatorCallConst r c = .ok (A.data_.get? p) := by
  unfold CuSpMatrix.operatorCallConst
  rw [h]
  simp only [Except.map, CuValue.toReal, Int.ofNat_nonneg, if_true, Int.toNat_ofNat]

/-! ## Helper lemmas: batch assembly and padded copy -/

/-- For `num_sequence` in `[0, 2^31)` the conversion to `size_t` is exact. -/
theorem toSizeT_of_nonneg {x : Int} (h0 : 0 ≤ x) (h : x < 2 ^ 31) : toSizeT x = x := by
  unfold toSizeT
  omega

/-- A destination row below the row count: `r*cur + s < cur*max` when `s < cur`
and `r < f ≤ max`. -/
theorem rowIndex_lt {cur s r f mx : Int} (hs0 : 0 ≤ s) (hs : s < cur)
    (hr0 : 0 ≤ r) (hr : r < f) (hf : f ≤ mx) :
    0 ≤ r * cur + s ∧ r * cur + s < cur * mx := by
  have hcur : 0 < cur := lt_of_le_of_lt hs0 hs
  constructor
  · have : 0 ≤ r * cur := mul_nonneg hr0 hcur.le
    omega
  · have h1 : (r + 1) * cur ≤ mx * cur :=
      mul_le_mul_of_nonneg_right (by omega) hcur.le
    nlinarith

/-- The map `(r, s) -> r*cur + s` with `0 ≤ s < cur` is injective. -/
theorem rowIndex_inj {cur s r s1 r1 : Int} (hs0 : 0 ≤ s) (hs : s < cur)
    (hs10 : 0 ≤ s1) (hs1 : s1 < cur) (h : r * cur + s = r1 * cur + s1) :
    r = r1 ∧ s = s1 := by
  have hcur : 0 < cur := lt_of_le_of_lt hs0 hs
  have hmod : (r * cur + s) % cur = (r1 * cur + s1) % cur := by rw [h]
  rw [Int.add_comm (r * cur) s, Int.add_comm (r1 * cur) s1, Int.add_mul_emod_self,
    Int.add_mul_emod_self, Int.emod_eq_of_lt hs0 hs, Int.emod_eq_of_lt hs10 hs1] at hmod
  subst hmod
  have hmul : r * cur = r1 * cur := by omega
  exact ⟨Int.eq_of_mul_eq_mul_right (ne_of_gt hcur) hmul, rfl⟩

/-- Without overflow the 32-bit destination row is `r*cur + s`. -/
theorem destRow_eq {cur s r f mx : Int} (hs0 : 0 ≤ s) (hs : s < cur)
    (hr0 : 0 ≤ r) (hr : r < f) (hf : f ≤ mx) (hov : cur * mx < 2 ^ 31) :
    destRow cur r s = r * cur + s := by
  have hcur : 0 < cur := lt_of_le_of_lt hs0 hs
  have hb := rowIndex_lt hs0 hs hr0 hr hf
  have h1 : 0 ≤ r * cur := mul_nonneg hr0 hcur.le
  unfold destRow
  have hw : wrapInt32 (r * cur) = r * cur := wrapInt32_of_isInt32 (by unfold IsInt32; omega)
  rw [hw]
  exact wrapInt32_of_isInt32 (by unfold IsInt32; omega)

/-- Accepting one more utterance keeps `max_frame_num` the maximum. -/
theorem Batch.valid_push {α : Type} (b : Batch α) (u : Utterance α) (hv : b.Valid)
    (hu0 : 0 ≤ u.num_rows) (hu : u.num_rows < 2 ^ 31) :
    Batch.Valid (⟨b.utts ++ [u],
      if b.max_frame_num < u.num_rows then u.num_rows else b.max_frame_num⟩ : Batch α) := by
  obtain ⟨hall, hnil, hatt⟩ := hv
  refine ⟨?_, ?_, ?_⟩
  · intro x hx
    rcases List.mem_append.mp hx with hx | hx
    · obtain ⟨h0, h1, h2⟩ := hall x hx
      refine ⟨h0, ?_, h2⟩
      show x.num_rows ≤ if b.max_frame_num < u.num_rows then u.num_rows else b.max_frame_num
      split <;> omega
    · have hxu : x = u := List.mem_singleton.mp hx
      subst hxu
      refine ⟨hu0, ?_, hu⟩
      show x.num_rows ≤ if b.max_frame_num < x.num_rows then x.num_rows else b.max_frame_num
      split <;> omega
  · intro h
    exact absurd h (by simp)
  · intro _
    show ∃ x ∈ b.utts ++ [u],
      x.num_rows = if b.max_frame_num < u.num_rows then u.num_rows else b.max_frame_num
    by_cases hlt : b.max_frame_num < u.num_rows
    · rw [if_pos hlt]
      exact ⟨u, List.mem_append.mpr (Or.inr (List.mem_singleton.mpr rfl)), rfl⟩
    · rw [if_neg hlt]
      by_cases hb : b.utts = []
      · have h0 := hnil hb
        exact ⟨u, List.mem_append.mpr (Or.inr (List.mem_singleton.mpr rfl)), by omega⟩
      · obtain ⟨x, hx, hxm⟩ := hatt hb
        exact ⟨x, List.mem_append.mpr (Or.inl hx), hxm⟩

/-- The batch-assembly loop returns, and its batch is valid and holds at most
`num_sequence` utterances. -/
theorem assembleBatch_valid {α : Type} (num_sequence : Int) (limitReached : Nat → Int → Bool)
    (hns : 1 ≤ num_sequence) (hns32 : num_sequence < 2 ^ 31)
    (stream : List (Utterance α)) (b : Batch α) (hv : b.Valid)
    (hlen : (b.utts.length : Int) < num_sequence)
    (hrows : ∀ u ∈ stream, 0 ≤ u.num_rows ∧ u.num_rows < 2 ^ 31) :
    ∃ b1 rest, assembleBatch num_sequence limitReached stream b = some (b1, rest) ∧
      b1.Valid ∧ (b1.utts.length : Int) ≤ num_sequence := by
  have hsz : toSizeT num_sequence = num_sequence := toSizeT_of_nonneg (by omega) hns32
  induction stream generalizing b with
  | nil => exact ⟨b, [], rfl, hv, le_of_lt hlen⟩
  | cons u rest ih =>
    have hrest : ∀ x ∈ rest, 0 ≤ x.num_rows ∧ x.num_rows < 2 ^ 31 :=
      fun x hx => hrows x (List.mem_cons_of_mem u hx)
    have hu := hrows u (List.mem_cons_self u rest)
    by_cases ht : u.has_targets = false
    · simp only [assembleBatch, ht, if_true]
      exact ih b hv hlen hrest
    · have hv1 := Batch.valid_push b u hv hu.1 hu.2
      have hlen1 : ((b.utts ++ [u]).length : Int) = (b.utts.length : Int) + 1 := by
        simp only [List.length_append, List.length_singleton, Nat.cast_add, Nat.cast_one]
      by_cases hbr : ((b.utts ++ [u]).length : Int) = num_sequence ∨
          limitReached (b.utts ++ [u]).length
            (if b.max_frame_num < u.num_rows then u.num_rows else b.max_frame_num) = true
      · simp only [assembleBatch, ht, if_false, hsz, hlen, if_true, hbr]
        refine ⟨_, _, rfl, hv1, ?_⟩
        show ((b.utts ++ [u]).length : Int) ≤ num_sequence
        omega
      · simp only [assembleBatch, ht, if_false, hsz, hlen, if_true, hbr]
        apply ih _ hv1 _ hrest
        have hne : ((b.utts ++ [u]).length : Int) ≠ num_sequence := fun h => hbr (Or.inl h)
        show ((b.utts ++ [u]).length : Int) < num_sequence
        omega

/-- The inner copy loop succeeds when its destination rows fit the matrix; it
writes frame `r` to row `r*cur + s` and leaves every other row as it was. -/
theorem copyRows_ok {α : Type} (cur s N : Int) (u : Utterance α) (k : Nat)
    (M : FeatMatrix α) (hs0 : 0 ≤ s) (hs : s < cur) (hN : M.num_rows = N)
    (hk : (k : Int) * cur ≤ N) (hN32 : N < 2 ^ 31) :
    ∃ M1, copyRows cur s u k M = some M1 ∧ M1.num_rows = N ∧
      (∀ r : Nat, r < k → M1.row ((r : Int) * cur + s) = u.row r) ∧
      (∀ j : Int, (∀ r : Nat, r < k → j ≠ (r : Int) * cur + s) → M1.row j = M.row j) := by
  have hcur : 0 < cur := lt_of_le_of_lt hs0 hs
  induction k with
  | zero =>
    exact ⟨M, rfl, hN, fun r hr => absurd hr (Nat.not_lt_zero r), fun j _ => rfl⟩
  | succ k ih =>
    have hk1 : ((k : Int) + 1) * cur ≤ N := by
      have : ((k + 1 : Nat) : Int) = (k : Int) + 1 := by push_cast; rfl
      rw [← this]
      exact hk
    have hk0 : (k : Int) * cur ≤ N := by nlinarith
    obtain ⟨M1, hM1, hrows, hset, hkeep⟩ := ih hk0
    have hcomm : cur * ((k : Int) + 1) = ((k : Int) + 1) * cur := mul_comm _ _
    have hlt1 : (k : Int) < (k : Int) + 1 := by omega
    have hdest : destRow cur k s = (k : Int) * cur + s :=
      destRow_eq hs0 hs (Int.ofNat_nonneg k) hlt1 (le_refl ((k : Int) + 1)) (by omega)
    have hb := rowIndex_lt hs0 hs (Int.ofNat_nonneg k) hlt1 (le_refl ((k : Int) + 1))
    have hin : 0 ≤ (k : Int) * cur + s ∧ (k : Int) * cur + s < M1.num_rows := by
      rw [hrows]
      constructor
      · exact hb.1
      · have := hb.2
        omega
    refine ⟨{ M1 with row := fun j => if j = (k : Int) * cur + s then u.row k else M1.row j },
      ?_, hrows, ?_, ?_⟩
    · simp only [copyRows, hM1, FeatMatrix.setRow, hdest, hin, and_self, if_true]
    · intro r hr
      show (if (r : Int) * cur + s = (k : Int) * cur + s then u.row k
        else M1.row ((r : Int) * cur + s)) = u.row r
      rcases Nat.lt_succ_iff_lt_or_eq.mp hr with hlt | heq
      · have hne : (r : Int) * cur + s ≠ (k : Int) * cur + s := by
          intro h
          have := (rowIndex_inj hs0 hs hs0 hs h).1
          omega
        rw [if_neg hne]
        exact hset r hlt
      · subst heq
        rw [if_pos rfl]
    · intro j hj
      show (if j = (k : Int) * cur + s then u.row k else M1.row j) = M.row j
      rw [if_neg (hj k (Nat.lt_succ_self k))]
      exact hkeep j (fun r hr => hj r (Nat.lt_succ_of_lt hr))

/-- A successful inner copy loop wrote inside the matrix only. -/
theorem copyRows_some_range {α : Type} (cur s : Int) (u : Utterance α) (k : Nat)
    (M M1 : FeatMatrix α) (h : copyRows cur s u k M = some M1) :
    M1.num_rows = M.num_rows ∧
      ∀ r : Nat, r < k → 0 ≤ destRow cur r s ∧ destRow cur r s < M.num_rows := by
  induction k generalizing M1 with
  | zero =>
    simp only [copyRows, Option.some.injEq] at h
    subst h
    exact ⟨rfl, fun r hr => absurd hr (Nat.not_lt_zero r)⟩
  | succ k ih =>
    simp only [copyRows] at h
    cases hk : copyRows cur s u k M with
    | none =>
      rw [hk] at h
      cases h
    | some M2 =>
      rw [hk] at h
      obtain ⟨hrows, hall⟩ := ih M2 hk
      simp only [FeatMatrix.setRow] at h
      by_cases hin : 0 ≤ destRow cur k s ∧ destRow cur k s < M2.num_rows
      · rw [if_pos hin] at h
        simp only [Option.some.injEq] at h
        subst h
        refine ⟨hrows, ?_⟩
        intro r hr
        rcases Nat.lt_succ_iff_lt_or_eq.mp hr with hlt | heq
        · exact hall r hlt
        · subst heq
          rw [← hrows]
          exact hin
      · rw [if_neg hin] at h
        cases h

/-- The outer copy loop succeeds when every utterance fits the matrix; it
writes frame `r` of its `i`-th utterance to row `r*cur + (s0 + i)` and leaves
every other row as it was. -/
theorem copyUtts_ok {α : Type} (cur N : Int) (us : List (Utterance α)) (s0 : Nat)
    (M : FeatMatrix α) (hs : (s0 : Int) + us.length ≤ cur) (hN : M.num_rows = N)
    (hN32 : N < 2 ^ 31) (hus : ∀ u ∈ us, 0 ≤ u.num_rows ∧ u.num_rows * cur ≤ N) :
    ∃ M1, copyUtts cur us s0 M = some M1 ∧ M1.num_rows = N ∧
      (∀ (i : Nat) (u : Utterance α), us[i]? = some u → ∀ r : Int, 0 ≤ r → r < u.num_rows →
        M1.row (r * cur + ((s0 + i : Nat) : Int)) = u.row r) ∧
      (∀ j : Int,
        (∀ (i : Nat) (u : Utterance α), us[i]? = some u → ∀ r : Int, 0 ≤ r →
          r < u.num_rows → j ≠ r * cur + ((s0 + i : Nat) : Int)) →
        M1.row j = M.row j) := by
  induction us generalizing s0 M with
  | nil =>
    refine ⟨M, rfl, hN, ?_, fun j _ => rfl⟩
    intro i u hi
    simp at hi
  | cons u us ih =>
    have hlen : (((u :: us).length : Nat) : Int) = (us.length : Int) + 1 := by
      simp only [List.length_cons, Nat.cast_add, Nat.cast_one]
    rw [hlen] at hs
    have hu := hus u (List.mem_cons_self u us)
    have hs0lt : (s0 : Int) < cur := by omega
    have hk : ((u.num_rows.toNat : Nat) : Int) * cur ≤ N := by
      rw [Int.toNat_of_nonneg hu.1]
      exact hu.2
    obtain ⟨M1, hM1, hrows1, hset1, hkeep1⟩ :=
      copyRows_ok cur s0 N u u.num_rows.toNat M (Int.ofNat_nonneg s0) hs0lt hN hk hN32
    have hs1 : (((s0 + 1 : Nat) : Nat) : Int) + us.length ≤ cur := by
      push_cast
      omega
    obtain ⟨M2, hM2, hrows2, hset2, hkeep2⟩ :=
      ih (s0 + 1) M1 hs1 hrows1 (fun x hx => hus x (List.mem_cons_of_mem u hx))
    refine ⟨M2, ?_, hrows2, ?_, ?_⟩
    · simp only [copyUtts, hM1]
      have hcast : (s0 : Int) + 1 = ((s0 + 1 : Nat) : Int) := by push_cast; rfl
      rw [hcast]
      exact hM2
    · intro i x hi r hr0 hr
      cases i with
      | zero =>
        simp only [List.getElem?_cons_zero, Option.some.injEq] at hi
        subst hi
        have hother : M2.row (r * cur + ((s0 + 0 : Nat) : Int))
            = M1.row (r * cur + ((s0 + 0 : Nat) : Int)) := by
          apply hkeep2
          intro i1 x1 hi1 r1 hr10 hr1 heq
          have hi1len : i1 < us.length := by
            by_contra hcon
            rw [List.getElem?_eq_none (Nat.le_of_not_lt hcon)] at hi1
            cases hi1
          have hsa : (0 : Int) ≤ ((s0 + 0 : Nat) : Int) := Int.ofNat_nonneg _
          have hsb : ((s0 + 0 : Nat) : Int) < cur := by push_cast; omega
          have hsc : (0 : Int) ≤ ((s0 + 1 + i1 : Nat) : Int) := Int.ofNat_nonneg _
          have hsd : ((s0 + 1 + i1 : Nat) : Int) < cur := by push_cast; omega
          have := (rowIndex_inj hsa hsb hsc hsd heq).2
          push_cast at this
          omega
        rw [hother]
        have hrn : ((r.toNat : Nat) : Int) = r := Int.toNat_of_nonneg hr0
        have hlt : r.toNat < u.num_rows.toNat := by
          have := Int.toNat_of_nonneg hu.1
          omega
        have h1 := hset1 r.toNat hlt
        rw [hrn] at h1
        simpa using h1
      | succ i =>
        simp only [List.getElem?_cons_succ] at hi
        have h2 := hset2 i x hi r hr0 hr
        have hcast : ((s0 + (i + 1) : Nat) : Int) = ((s0 + 1 + i : Nat) : Int) := by
          push_cast
          omega
        rw [hcast]
        exact h2
    · intro j hj
      have h2 : M2.row j = M1.row j := by
        apply hkeep2
        intro i x hi r hr0 hr
        have := hj (i + 1) x (by simpa using hi) r hr0 hr
        have hcast : ((s0 + (i + 1) : Nat) : Int) = ((s0 + 1 + i : Nat) : Int) := by
          push_cast
          omega
        rw [hcast] at this
        exact this
      rw [h2]
      apply hkeep1
      intro r hr
      have hr1 : ((r : Nat) : Int) < u.num_rows := by
        have := Int.toNat_of_nonneg hu.1
        omega
      have := hj 0 u (by simp) (r : Int) (Int.ofNat_nonneg r) hr1
      simpa using this

/-- A successful outer copy loop wrote inside the matrix only. -/
theorem copyUtts_some_range {α : Type} (cur : Int) (us : List (Utterance α)) (s0 : Int)
    (M M1 : FeatMatrix α) (h : copyUtts cur us s0 M = some M1) :
    M1.num_rows = M.num_rows ∧
      ∀ (i : Nat) (u : Utterance α), us[i]? = some u → ∀ r : Nat, r < u.num_rows.toNat →
        0 ≤ destRow cur r (s0 + i) ∧ destRow cur r (s0 + i) < M.num_rows := by
  induction us generalizing s0 M with
  | nil =>
    simp only [copyUtts, Option.some.injEq] at h
    subst h
    refine ⟨rfl, ?_⟩
    intro i u hi
    simp at hi
  | cons u us ih =>
    simp only [copyUtts] at h
    cases hk : copyRows cur s0 u u.num_rows.toNat M with
    | none =>
      rw [hk] at h
      cases h
    | some M2 =>
      rw [hk] at h
      obtain ⟨hrows2, hall2⟩ := copyRows_some_range cur s0 u _ M M2 hk
      obtain ⟨hrows, hall⟩ := ih (s0 + 1) M2 h
      refine ⟨hrows.trans hrows2, ?_⟩
      intro i x hi r hr
      cases i with
      | zero =>
        simp only [List.getElem?_cons_zero, Option.some.injEq] at hi
        subst hi
        have := hall2 r hr
        simpa using this
      | succ i =>
        simp only [List.getElem?_cons_succ] at hi
        have := hall i x hi r hr
        rw [hrows2] at this
        have hcast : s0 + ((i + 1 : Nat) : Int) = s0 + 1 + (i : Int) := by
          push_cast
          omega
        rw [hcast]
        exact this

/-- The empty batch is valid. -/
theorem emptyBatch_valid {α : Type} : (emptyBatch : Batch α).Valid :=
  ⟨fun u hu => absurd hu (List.not_mem_nil u), fun _ => rfl, fun h => absurd rfl h⟩

/-- Entry `s` of `frame_num_utt` is the row count of the `s`-th accepted utterance. -/
theorem frame_num_utt_getElem? {α : Type} (b : Batch α) {s : Nat} {f : Int}
    (h : b.frame_num_utt[s]? = some f) : ∃ u, b.utts[s]? = some u ∧ u.num_rows = f := by
  unfold Batch.frame_num_utt at h
  rw [List.getElem?_map] at h
  cases hu : b.utts[s]? with
  | none =>
    rw [hu] at h
    cases h
  | some u =>
    rw [hu] at h
    exact ⟨u, rfl, Option.some.inj h⟩

/-- In a valid batch of at most `2^31 - 1` utterances, the `s`-th utterance has
`s < cur_sequence_num` and a frame count between 0 and `max_frame_num`. -/
theorem Batch.utt_bounds {α : Type} (b : Batch α) (hv : b.Valid)
    (hcur : b.cur_sequence_num = b.utts.length) {s : Nat} {u : Utterance α}
    (h : b.utts[s]? = some u) :
    (s : Int) < b.cur_sequence_num ∧ 0 ≤ u.num_rows ∧ u.num_rows ≤ b.max_frame_num := by
  obtain ⟨hlt, _⟩ := List.getElem?_eq_some.mp h
  have hm := hv.1 u (List.getElem?_mem h)
  rw [hcur]
  exact ⟨Int.ofNat_lt.mpr hlt, hm.1, hm.2.1⟩

/-- A successful padded copy wrote inside the matrix only. -/
theorem padBatch_some_range {α : Type} (zero : α) (b : Batch α) (M : FeatMatrix α)
    (h : padBatch zero b = some M) (s : Nat) (u : Utterance α) (hu : b.utts[s]? = some u)
    (r : Nat) (hr : (r : Int) < u.num_rows) :
    0 ≤ destRow b.cur_sequence_num r s ∧ destRow b.cur_sequence_num r s < b.paddedRows := by
  have hnn : 0 ≤ u.num_rows := le_trans (Int.ofNat_nonneg r) (le_of_lt hr)
  have hr1 : r < u.num_rows.toNat := by
    have := Int.toNat_of_nonneg hnn
    omega
  unfold padBatch at h
  by_cases h0 : 0 ≤ b.paddedRows
  · rw [if_pos h0] at h
    have hall := (copyUtts_some_range b.cur_sequence_num b.utts 0 _ M h).2 s u hu r hr1
    rw [Int.zero_add] at hall
    exact hall
  · rw [if_neg h0] at h
    exact Option.noConfusion h

/-! ## Helper lemmas: uniqueness of the factor and of the inverse -/

/-- The dual-path operations over the modelled routines are the operations
of the sections above. -/
theorem modelBackends_ops {K : Type} [Field K] (sqrt : K → K) (enabled : Bool)
    (T : CuTpMatrix K) :
    (∀ orig : CuSpMatrix K,
      (modelBackends sqrt).Cholesky enabled T orig = CuTpMatrix.Cholesky sqrt enabled T orig) ∧
    (modelBackends sqrt).Invert enabled T = CuTpMatrix.Invert enabled T ∧
    (∀ (M : CuMatrixBase K) (Trans : MatrixTransposeType),
      (modelBackends sqrt).CopyFromMat enabled T M Trans
        = CuTpMatrix.CopyFromMat enabled T M Trans) :=
  ⟨fun _ => rfl, rfl, fun _ _ => rfl⟩

/-- C1 (as amended): for every dimension `n` (a 32-bit signed integer) and all
indices `0 ≤ r, c < n` whose larger index is at most 46340 (so that
`max(r,c) * (max(r,c)+1)` fits a 32-bit signed integer), both overloads of
`operator()` address packed position `max(r,c) * (max(r,c)+1) / 2 + min(r,c)`;
hence `(r, c)` and `(c, r)` address the same stored entry, and for `r ≥ c` the
position is `r (r+1) / 2 + c`.  The bound is sharp: when the larger index is
46341 or more, the wrapped 32-bit product makes the accessor address another
offset. -/
theorem CuSpMatrix.operatorCall_packed_position {K : Type} (A : CuSpMatrix K) (r c : Int)
    (hn : (A.num_rows_ : Int) < 2 ^ 31)
    (hr0 : 0 ≤ r) (hr : r < A.num_rows_) (hc0 : 0 ≤ c) (hc : c < A.num_rows_) :
    (max r c ≤ 46340 →
      A.operatorCall r c = .ok ⟨max r c * (max r c + 1) / 2 + min r c⟩ ∧
      A.operatorCallConst r c
        = .ok (A.data_.get? (max r c * (max r c + 1) / 2 + min r c).toNat) ∧
      A.operatorCall r c = A.operatorCall c r ∧
      A.operatorCallConst r c = A.operatorCallConst c r ∧
      (c ≤ r → A.operatorCall r c = .ok ⟨r * (r + 1) / 2 + c⟩ ∧
        A.operatorCallConst r c = .ok (A.data_.get? (r * (r + 1) / 2 + c).toNat))) ∧
    (46341 ≤ max r c →
      A.operatorCall r c ≠ .ok ⟨max r c * (max r c + 1) / 2 + min r c⟩) := by
  constructor
  · intro hmax
    have hmax1 : max c r ≤ 46340 := by rw [max_comm]; exact hmax
    have h1 := elementOffset_eq_of_max_le hn hr0 hr hc0 hc hmax
    have h2 := elementOffset_eq_of_max_le hn hc0 hc hr0 hr hmax1
    have hnn : 0 ≤ max r c * (max r c + 1) / 2 + min r c := by
      have : 0 ≤ max r c := le_max_of_le_left hr0
      have : 0 ≤ min r c := le_min hr0 hc0
      positivity
    have e1 : A.operatorCall r c = .ok ⟨max r c * (max r c + 1) / 2 + min r c⟩ := by
      unfold CuSpMatrix.operatorCall; rw [h1]; rfl
    have e2 : A.operatorCallConst r c
        = .ok (A.data_.get? (max r c * (max r c + 1) / 2 + min r c).toNat) := by
      unfold CuSpMatrix.operatorCallConst; rw [h1]
      simp only [Except.map, CuValue.toReal, hnn, if_true]
    have e3 : A.operatorCall c r = .ok ⟨max r c * (max r c + 1) / 2 + min r c⟩ := by
      unfold CuSpMatrix.operatorCall; rw [h2, max_comm c r, min_comm c r]; rfl
    have e4 : A.operatorCallConst c r
        = .ok (A.data_.get? (max r c * (max r c + 1) / 2 + min r c).toNat) := by
      unfold CuSpMatrix.operatorCallConst; rw [h2, max_comm c r, min_comm c r]
      simp only [Except.map, CuValue.toReal, hnn, if_true]
    refine ⟨e1, e2, e1.trans e3.symm, e2.trans e4.symm, ?_⟩
    intro hcr
    rw [e1, e2, max_eq_left hcr, min_eq_right hcr]
    exact ⟨rfl, rfl⟩
  · intro hmax hcall
    apply elementOffset_overflow hn hr0 hr hc0 hc hmax
    rcases elementOffset_ok_or_error (A.num_rows_ : Int) r c with ⟨v, hv⟩ | hv
    · unfold CuSpMatrix.operatorCall at hcall
      rw [hv] at hcall
      have hcall1 : (Except.ok (CuValue.mk v) : Except KaldiError CuValue)
          = .ok ⟨max r c * (max r c + 1) / 2 + min r c⟩ := hcall
      injection hcall1 with hcall1
      injection hcall1 with hcall1
      rw [hv, hcall1]
    · unfold CuSpMatrix.operatorCall at hcall
      rw [hv] at hcall
      exact Except.noConfusion hcall

/-- Witness of C1 (amended): on the 3 x 3 example `(1, 2)` is stored at position
`2 * 3 / 2 + 1 = 4`, and in a matrix of dimension 46342 the entry `(5, 7)` is
stored at position `7 * 8 / 2 + 5 = 33`. -/
theorem CuSpMatrix.operatorCall_packed_position_witness :
    (((exampleSp.num_rows_ : Int) < 2 ^ 31 ∧ (0 : Int) ≤ 1 ∧ (1 : Int) < exampleSp.num_rows_ ∧
        (0 : Int) ≤ 2 ∧ (2 : Int) < exampleSp.num_rows_ ∧ max (1 : Int) 2 ≤ 46340) ∧
      exampleSp.operatorCall 1 2 = .ok ⟨4⟩ ∧
      exampleSp.operatorCallConst 1 2 = .ok (some 5) ∧
      exampleSp.operatorCall 1 2 = exampleSp.operatorCall 2 1) ∧
    (((largeSp.num_rows_ : Int) < 2 ^ 31 ∧ (0 : Int) ≤ 5 ∧ (5 : Int) < largeSp.num_rows_ ∧
        (0 : Int) ≤ 7 ∧ (7 : Int) < largeSp.num_rows_ ∧ max (5 : Int) 7 ≤ 46340) ∧
      largeSp.operatorCall 5 7 = .ok ⟨33⟩ ∧
      largeSp.operatorCall 5 7 = largeSp.operatorCall 7 5) :=
  ⟨⟨by decide,
    ((CuSpMatrix.operatorCall_packed_position exampleSp 1 2
        (by decide) (by decide) (by decide) (by decide) (by decide)).1 (by decide)).1,
    ((CuSpMatrix.operatorCall_packed_position exampleSp 1 2
        (by decide) (by decide) (by decide) (by decide) (by decide)).1 (by decide)).2.1,
    ((CuSpMatrix.operatorCall_packed_position exampleSp 1 2
        (by decide) (by decide) (by decide) (by decide) (by decide)).1 (by decide)).2.2.1⟩,
   ⟨by decide,
    ((CuSpMatrix.operatorCall_packed_position largeSp 5 7
        (by decide) (by decide) (by decide) (by decide) (by decide)).1 (by decide)).1,
    ((CuSpMatrix.operatorCall_packed_position largeSp 5 7
        (by decide) (by decide) (by decide) (by decide) (by decide)).1 (by decide)).2.2.1⟩⟩

/-- Counterexample to C1 as stated (every dimension): at `n = 46342`, `r = 46341`,
`c = 0` the 32-bit product `r * (r+1) = 2147534622` exceeds `2^31 - 1`; with
two's-complement wrap-around the accessor addresses offset `-1073716337`, not
the packed position `46341 * 46342 / 2 + 0 = 1073767311`. -/
theorem CuSpMatrix.operatorCall_overflow_counterexample :
    ((0 : Int) ≤ 46341 ∧ (46341 : Int) < largeSp.num_rows_ ∧
      (0 : Int) ≤ 0 ∧ (0 : Int) < largeSp.num_rows_) ∧
    largeSp.operatorCall 46341 0 = .ok ⟨-1073716337⟩ ∧
    largeSp.operatorCall 46341 0
      ≠ .ok ⟨max 46341 0 * (max 46341 0 + 1) / 2 + min 46341 0⟩ := by
  have h : largeSp.operatorCall 46341 0 = .ok ⟨-1073716337⟩ := by rfl
  refine ⟨by decide, h, ?_⟩
  rw [h]
  intro hh
  injection hh with hh
  injection hh with hh
  revert hh
  decide

/-- C2: for every dimension `n ≥ 0` and every pair of 32-bit signed indices
`(r, c)`, either overload of `operator()` fails with IndexOutOfRange if and only
if `r` or `c` is outside `[0, n)`; in particular it fails whenever `r` is
outside `[0, n)` and it succeeds when both indices are inside. -/
theorem CuSpMatrix.operatorCall_fails_iff {K : Type} (A : CuSpMatrix K) (r c : Int)
    (hn : (A.num_rows_ : Int) < 2 ^ 31) (hr : IsInt32 r) (hc : IsInt32 c) :
    (A.operatorCall r c = .error KaldiError.IndexOutOfRange ↔
      ¬ (0 ≤ r ∧ r < A.num_rows_ ∧ 0 ≤ c ∧ c < A.num_rows_)) ∧
    (A.operatorCallConst r c = .error KaldiError.IndexOutOfRange ↔
      ¬ (0 ≤ r ∧ r < A.num_rows_ ∧ 0 ≤ c ∧ c < A.num_rows_)) ∧
    (¬ (0 ≤ r ∧ r < A.num_rows_) →
      A.operatorCall r c = .error KaldiError.IndexOutOfRange ∧
      A.operatorCallConst r c = .error KaldiError.IndexOutOfRange) ∧
    ((0 ≤ r ∧ r < A.num_rows_ ∧ 0 ≤ c ∧ c < A.num_rows_) →
      (∃ v, A.operatorCall r c = .ok v) ∧ (∃ x, A.operatorCallConst r c = .ok x)) := by
  have key := elementOffset_error_iff (Int.ofNat_nonneg A.num_rows_) hn hr hc
  have m1 : A.operatorCall r c = .error KaldiError.IndexOutOfRange ↔
      CuSpMatrix.elementOffset A.num_rows_ r c = .error KaldiError.IndexOutOfRange := by
    unfold CuSpMatrix.operatorCall
    cases CuSpMatrix.elementOffset A.num_rows_ r c <;> simp [Except.map]
  have m2 : A.operatorCallConst r c = .error KaldiError.IndexOutOfRange ↔
      CuSpMatrix.elementOffset A.num_rows_ r c = .error KaldiError.IndexOutOfRange := by
    unfold CuSpMatrix.operatorCallConst
    cases CuSpMatrix.elementOffset A.num_rows_ r c <;> simp [Except.map]
  have i1 := m1.trans key
  have i2 := m2.trans key
  refine ⟨i1, i2, ?_, ?_⟩
  · intro h
    exact ⟨i1.2 (fun hh => h ⟨hh.1, hh.2.1⟩), i2.2 (fun hh => h ⟨hh.1, hh.2.1⟩)⟩
  · intro h
    have hne : CuSpMatrix.elementOffset A.num_rows_ r c
        ≠ .error KaldiError.IndexOutOfRange := fun hh => key.1 hh h
    rcases elementOffset_ok_or_error (A.num_rows_ : Int) r c with ⟨v, hv⟩ | hv
    · constructor
      · exact ⟨⟨v⟩, by unfold CuSpMatrix.operatorCall; rw [hv]; rfl⟩
      · exact ⟨_, by unfold CuSpMatrix.operatorCallConst; rw [hv]; rfl⟩
    · exact absurd hv hne

/-- Witness of C2 on the 3 x 3 example with `r = -1`, `c = 2`: the access fails. -/
theorem CuSpMatrix.operatorCall_fails_iff_witness :
    ((exampleSp.num_rows_ : Int) < 2 ^ 31 ∧ IsInt32 (-1) ∧ IsInt32 2) ∧
    (¬ ((0 : Int) ≤ -1 ∧ (-1 : Int) < exampleSp.num_rows_) →
      exampleSp.operatorCall (-1) 2 = .error KaldiError.IndexOutOfRange ∧
      exampleSp.operatorCallConst (-1) 2 = .error KaldiError.IndexOutOfRange) :=
  ⟨by decide,
   (CuSpMatrix.operatorCall_fails_iff exampleSp (-1) 2
      (by decide) (by decide) (by decide)).2.2.1⟩

/-! ## Trace product and Frobenius norm -/

/-- C3: for packed symmetric matrices `A` and `B` of the same dimension `n`,
`TraceSpSp(A, B)` (twice the off-diagonal stored products plus the diagonal
ones) equals the trace of the ordinary product of the full symmetric `n x n`
matrices that `A` and `B` represent. -/
theorem TraceSpSp_eq_trace_mul {K : Type} [CommRing K] (A B : CuSpMatrix K) (n : Nat)
    (hA : A.num_rows_ = n) (hB : B.num_rows_ = n) :
    TraceSpSp A B = Matrix.trace (A.toFull n * B.toFull n) := by
  have _hsame : A.num_rows_ = B.num_rows_ := hA.trans hB.symm
  rw [TraceSpSp_eq_double_sum, hA]
  simp only [Matrix.trace, Matrix.diag, Matrix.mul_apply, CuSpMatrix.toFull]
  rw [Finset.sum_range]
  exact Finset.sum_congr rfl (fun i _ => Finset.sum_range _)

/-- Witness of C3 on two 3 x 3 matrices over the integers: both sides are 51. -/
theorem TraceSpSp_eq_trace_mul_witness :
    (exampleSp.num_rows_ = 3 ∧ exampleSp2.num_rows_ = 3) ∧
    TraceSpSp exampleSp exampleSp2 = Matrix.trace (exampleSp.toFull 3 * exampleSp2.toFull 3) ∧
    TraceSpSp exampleSp exampleSp2 = 51 :=
  ⟨by decide, TraceSpSp_eq_trace_mul exampleSp exampleSp2 3 (by decide) (by decide),
   by decide⟩

/-- C4: over exact real arithmetic, `FrobeniusNorm(A)` is `sqrt(TraceSpSp(A, A))`,
`TraceSpSp(A, A)` is the sum of the squared stored entries with the off-diagonal
ones weighted by 2, it is non-negative, and so `FrobeniusNorm(A)^2 = TraceSpSp(A, A)`. -/
theorem CuSpMatrix.FrobeniusNorm_sq (A : CuSpMatrix ℝ) :
    A.FrobeniusNorm Real.sqrt = Real.sqrt (TraceSpSp A A) ∧
    TraceSpSp A A
      = (∑ r in Finset.range A.num_rows_, ∑ c in Finset.range r, 2 * (A.stored r c) ^ 2)
        + ∑ r in Finset.range A.num_rows_, (A.stored r r) ^ 2 ∧
    0 ≤ TraceSpSp A A ∧
    (A.FrobeniusNorm Real.sqrt) ^ 2 = TraceSpSp A A := by
  have hform : TraceSpSp A A
      = (∑ r in Finset.range A.num_rows_, ∑ c in Finset.range r, 2 * (A.stored r c) ^ 2)
        + ∑ r in Finset.range A.num_rows_, (A.stored r r) ^ 2 := by
    unfold TraceSpSp
    congr 1
    · exact Finset.sum_congr rfl (fun r _ => Finset.sum_congr rfl (fun c _ => by ring))
    · exact Finset.sum_congr rfl (fun r _ => by ring)
  have hnn : 0 ≤ TraceSpSp A A := by
    rw [hform]
    apply add_nonneg
    · exact Finset.sum_nonneg (fun r _ => Finset.sum_nonneg (fun c _ => by positivity))
    · exact Finset.sum_nonneg (fun r _ => by positivity)
  refine ⟨rfl, hform, hnn, ?_⟩
  unfold CuSpMatrix.FrobeniusNorm
  exact Real.sq_sqrt hnn

/-! ## Cholesky factorisation -/

/-- C5: over exact real arithmetic, for every symmetric positive-definite packed
matrix `source` of dimension `n`, `Cholesky(source)` on either path leaves a
packed lower-triangular factor `L` of the same dimension with
`L * L^T = source`; for `source = [[4, 2], [2, 3]]` the stored factor is
`L[0,0] = 2`, `L[1,0] = 1`, `L[1,1] = sqrt 2`. -/
theorem CuTpMatrix.Cholesky_factor (enabled : Bool) (T : CuTpMatrix ℝ)
    (source : CuSpMatrix ℝ) (hdim : T.num_rows_ = source.num_rows_)
    (hpd : (source.toFull source.num_rows_).PosDef) :
    (∃ L, CuTpMatrix.Cholesky Real.sqrt enabled T source = .ok L ∧
      L.num_rows_ = source.num_rows_ ∧
      L.toLower source.num_rows_ * (L.toLower source.num_rows_).transpose
        = source.toFull source.num_rows_) ∧
    CuTpMatrix.Cholesky Real.sqrt enabled exampleTpZero exampleSpd
      = .ok ⟨2, [2, 1, Real.sqrt 2]⟩ := by
  constructor
  · have hstored : ∀ r c, c ≤ r → r < source.num_rows_ →
        CuPackedMatrix.stored
          { T with
            data_ := choleskyBuf Real.sqrt (fun i k => source.entry i k) T.num_rows_ } r c
          = choleskyEntry Real.sqrt (fun i k => source.entry i k) r c := by
      intro r c hcr hrn
      exact getD_choleskyBuf Real.sqrt _ hcr (hdim ▸ hrn)
    cases enabled
    · refine ⟨_, Cholesky_host_ok Real.sqrt T source hdim.symm, hdim, ?_⟩
      exact toLower_mul_transpose source source.num_rows_ hpd _ hstored
    · refine ⟨_, Cholesky_device_ok Real.sqrt T source hdim.symm, ?_, ?_⟩
      · rw [← hdim]
        split <;> rfl
      · apply toLower_mul_transpose source source.num_rows_ hpd
        intro r c hcr hrn
        have h0 : T.num_rows_ ≠ 0 := by omega
        rw [if_neg h0]
        exact hstored r c hcr hrn
  · rw [Cholesky_ok Real.sqrt enabled exampleTpZero exampleSpd rfl
      (fun h => absurd h (by decide))]
    show Except.ok (CuPackedMatrix.mk 2
      (choleskyBuf Real.sqrt (fun r c => exampleSpd.entry r c) 2)) = _
    rw [choleskyBuf_exampleSpd]

/-- Witness of C5: the example `[[4, 2], [2, 3]]` is positive definite and its
factor on the accelerator path is `[2, 1, sqrt 2]`. -/
theorem CuTpMatrix.Cholesky_factor_witness :
    (exampleTpZero.num_rows_ = exampleSpd.num_rows_ ∧
      (exampleSpd.toFull exampleSpd.num_rows_).PosDef) ∧
    (∃ L, CuTpMatrix.Cholesky Real.sqrt true exampleTpZero exampleSpd = .ok L ∧
      L.num_rows_ = exampleSpd.num_rows_ ∧
      L.toLower exampleSpd.num_rows_ * (L.toLower exampleSpd.num_rows_).transpose
        = exampleSpd.toFull exampleSpd.num_rows_) ∧
    CuTpMatrix.Cholesky Real.sqrt true exampleTpZero exampleSpd
      = .ok ⟨2, [2, 1, Real.sqrt 2]⟩ :=
  ⟨⟨rfl, exampleSpd_posDef⟩,
   CuTpMatrix.Cholesky_factor true exampleTpZero exampleSpd rfl exampleSpd_posDef⟩

/-! ## Triangle extraction -/

/-- C6: for an `n x n` dense matrix `M` and a triangular packed matrix `T` of
dimension `n`, on either path `CopyFromMat(M, kNoTrans)` succeeds with every
stored entry `T[r,c] = M[r,c]`, `0 ≤ c ≤ r < n`, and `CopyFromMat(M, kTrans)`
succeeds with `T[r,c] = M[c,r]`; a source that agrees with `M` on the selected
triangle gives the same result, so the other triangle has no influence.  The
constructor from a dense matrix yields the same entries. -/
theorem CuTpMatrix.CopyFromMat_takes_triangle {K : Type} [Zero K] (enabled : Bool)
    (T : CuTpMatrix K) (M : CuMatrixBase K)
    (hr : M.num_rows_ = T.num_rows_) (hc : M.num_cols_ = T.num_rows_) :
    (∃ T1, CuTpMatrix.CopyFromMat enabled T M MatrixTransposeType.kNoTrans = .ok T1 ∧
      T1.num_rows_ = T.num_rows_ ∧
      ∀ r c, c ≤ r → r < T.num_rows_ → T1.stored r c = M.data_ r c) ∧
    (∃ T2, CuTpMatrix.CopyFromMat enabled T M MatrixTransposeType.kTrans = .ok T2 ∧
      T2.num_rows_ = T.num_rows_ ∧
      ∀ r c, c ≤ r → r < T.num_rows_ → T2.stored r c = M.data_ c r) ∧
    (∀ M1 : CuMatrixBase K, M1.num_rows_ = T.num_rows_ → M1.num_cols_ = T.num_rows_ →
      ((∀ r c, c ≤ r → r < T.num_rows_ → M1.data_ r c = M.data_ r c) →
        CuTpMatrix.CopyFromMat enabled T M1 MatrixTransposeType.kNoTrans
          = CuTpMatrix.CopyFromMat enabled T M MatrixTransposeType.kNoTrans) ∧
      ((∀ r c, c ≤ r → r < T.num_rows_ → M1.data_ c r = M.data_ c r) →
        CuTpMatrix.CopyFromMat enabled T M1 MatrixTransposeType.kTrans
          = CuTpMatrix.CopyFromMat enabled T M MatrixTransposeType.kTrans)) ∧
    (∀ (undefinedData : List K) (trans : MatrixTransposeType),
      ∃ T3, CuTpMatrix.ofMat enabled undefinedData M trans = .ok T3 ∧
        T3.num_rows_ = M.num_rows_ ∧
        ∀ r c, c ≤ r → r < M.num_rows_ → T3.stored r c = M.triangleEntry trans r c) := by
  have stored_pack : ∀ (S : CuTpMatrix K) (m : Nat) (f : Nat → Nat → K) (r c : Nat),
      c ≤ r → r < m →
      CuPackedMatrix.stored
        (if m = 0 then S else { S with data_ := packLower f m }) r c = f r c := by
    intro S m f r c hcr hrm
    have hm : m ≠ 0 := by omega
    simp only [hm, if_false, CuPackedMatrix.stored]
    exact getD_packLower f 0 hcr hrm
  have rows_pack : ∀ (S : CuTpMatrix K) (f : Nat → Nat → K),
      CuPackedMatrix.num_rows_
        (if S.num_rows_ = 0 then S else { S with data_ := packLower f S.num_rows_ })
        = S.num_rows_ := by
    intro S f
    split <;> rfl
  refine ⟨⟨_, CopyFromMat_ok enabled T M _ hr hc, rows_pack T _, ?_⟩,
    ⟨_, CopyFromMat_ok enabled T M _ hr hc, rows_pack T _, ?_⟩, ?_, ?_⟩
  · intro r c hcr hrn
    exact stored_pack T T.num_rows_ _ r c hcr hrn
  · intro r c hcr hrn
    exact stored_pack T T.num_rows_ _ r c hcr hrn
  · intro M1 hr1 hc1
    constructor
    · intro hagree
      rw [CopyFromMat_ok enabled T M1 _ hr1 hc1, CopyFromMat_ok enabled T M _ hr hc,
        packLower_congr (M1.triangleEntry MatrixTransposeType.kNoTrans)
          (M.triangleEntry MatrixTransposeType.kNoTrans) T.num_rows_ hagree]
    · intro hagree
      rw [CopyFromMat_ok enabled T M1 _ hr1 hc1, CopyFromMat_ok enabled T M _ hr hc,
        packLower_congr (M1.triangleEntry MatrixTransposeType.kTrans)
          (M.triangleEntry MatrixTransposeType.kTrans) T.num_rows_ hagree]
  · intro undefinedData trans
    have hsq : M.num_rows_ = M.num_cols_ := hr.trans hc.symm
    refine ⟨_, ?_, rows_pack ⟨M.num_rows_, undefinedData⟩ (M.triangleEntry trans), ?_⟩
    · unfold CuTpMatrix.ofMat
      simp only [hsq, not_true_eq_false, if_false]
      rw [← hsq]
      exact CopyFromMat_ok enabled ⟨M.num_rows_, undefinedData⟩ M trans rfl hsq.symm
    · intro r c hcr hrn
      exact stored_pack ⟨M.num_rows_, undefinedData⟩ M.num_rows_ _ r c hcr hrn

/-- Witness of C6: the 3 x 3 dense example copied into a packed matrix of
dimension 3 on the accelerator path; the lower triangle gives
`[0, 10, 11, 20, 21, 22]` and the upper triangle `[0, 1, 11, 2, 12, 22]`. -/
theorem CuTpMatrix.CopyFromMat_takes_triangle_witness :
    (exampleDense.num_rows_ = exampleSp.num_rows_ ∧
      exampleDense.num_cols_ = exampleSp.num_rows_) ∧
    (∃ T1, CuTpMatrix.CopyFromMat true exampleSp exampleDense MatrixTransposeType.kNoTrans
        = .ok T1 ∧
      T1.num_rows_ = exampleSp.num_rows_ ∧
      ∀ r c, c ≤ r → r < exampleSp.num_rows_ → T1.stored r c = exampleDense.data_ r c) ∧
    CuTpMatrix.CopyFromMat true exampleSp exampleDense MatrixTransposeType.kNoTrans
      = .ok ⟨3, [0, 10, 11, 20, 21, 22]⟩ ∧
    CuTpMatrix.CopyFromMat false exampleSp exampleDense MatrixTransposeType.kTrans
      = .ok ⟨3, [0, 1, 11, 2, 12, 22]⟩ :=
  ⟨by decide,
   (CuTpMatrix.CopyFromMat_takes_triangle true exampleSp exampleDense
      (by decide) (by decide)).1,
   by rfl, by rfl⟩

/-- C7: on either path and for either flag, `CopyFromMat(M, flag)` on a packed
matrix of dimension `n` fails with DimensionMismatch if and only if `M` is not
`n x n`; with `n = 0` and a `0 x 0` source it succeeds and leaves the matrix
unchanged; on success the dimension is unchanged. -/
theorem CuTpMatrix.CopyFromMat_fails_iff {K : Type} (enabled : Bool)
    (T : CuTpMatrix K) (M : CuMatrixBase K) (Trans : MatrixTransposeType) :
    (CuTpMatrix.CopyFromMat enabled T M Trans = .error KaldiError.DimensionMismatch ↔
      ¬ (M.num_rows_ = T.num_rows_ ∧ M.num_cols_ = T.num_rows_)) ∧
    (∀ e, CuTpMatrix.CopyFromMat enabled T M Trans = .error e →
      e = KaldiError.DimensionMismatch) ∧
    (T.num_rows_ = 0 → M.num_rows_ = 0 → M.num_cols_ = 0 →
      CuTpMatrix.CopyFromMat enabled T M Trans = .ok T) ∧
    (∀ T1, CuTpMatrix.CopyFromMat enabled T M Trans = .ok T1 →
      T1.num_rows_ = T.num_rows_) := by
  by_cases hdim : M.num_rows_ = T.num_rows_ ∧ M.num_cols_ = T.num_rows_
  · have hok := CopyFromMat_ok enabled T M Trans hdim.1 hdim.2
    refine ⟨?_, ?_, ?_, ?_⟩
    · rw [hok]
      simp only [reduceCtorEq, false_iff, not_not]
      exact hdim
    · intro e he
      rw [hok] at he
      cases he
    · intro h0 _ _
      rw [hok, if_pos h0]
    · intro T1 h1
      rw [hok] at h1
      injection h1 with h1
      rw [← h1]
      split <;> rfl
  · have herr := CopyFromMat_error enabled T M Trans hdim
    refine ⟨?_, ?_, ?_, ?_⟩
    · rw [herr]
      simp only [true_iff]
      exact hdim
    · intro e he
      rw [herr] at he
      injection he with he
      exact he.symm
    · intro h0 hr0 hc0
      exact absurd ⟨hr0.trans h0.symm, hc0.trans h0.symm⟩ hdim
    · intro T1 h1
      rw [herr] at h1
      cases h1

/-- Witness of C7: a 2 x 3 source copied into a packed matrix of dimension 3
fails the dimension assertion. -/
theorem CuTpMatrix.CopyFromMat_fails_iff_witness :
    ¬ (exampleDenseNonSquare.num_rows_ = exampleSp.num_rows_ ∧
      exampleDenseNonSquare.num_cols_ = exampleSp.num_rows_) ∧
    CuTpMatrix.CopyFromMat true exampleSp exampleDenseNonSquare MatrixTransposeType.kTrans
      = .error KaldiError.DimensionMismatch :=
  ⟨by decide,
   (CuTpMatrix.CopyFromMat_fails_iff true exampleSp exampleDenseNonSquare
      MatrixTransposeType.kTrans).1.2 (by decide)⟩

/-! ## Triangular inversion -/

/-- C8: for every `n ≥ 0` and every lower-triangular packed matrix `L` of
dimension `n` with non-zero diagonal, on either path `Invert()` succeeds and
replaces `L` by a packed lower-triangular `X` of the same dimension with
`L * X = I`; for `n = 0` it succeeds and leaves the matrix as it is. -/
theorem CuTpMatrix.Invert_right_inverse {K : Type} [Field K] (enabled : Bool)
    (L : CuTpMatrix K) (hdiag : ∀ i, i < L.num_rows_ → L.stored i i ≠ 0) :
    (∃ X, CuTpMatrix.Invert enabled L = .ok X ∧
      X.num_rows_ = L.num_rows_ ∧
      L.toLower L.num_rows_ * X.toLower L.num_rows_ = 1) ∧
    (L.num_rows_ = 0 → CuTpMatrix.Invert enabled L = .ok L) := by
  refine ⟨⟨_, Invert_ok enabled L, ?_, ?_⟩, ?_⟩
  · split <;> rfl
  · apply toLower_mul_solution L L.num_rows_ hdiag
    intro r c hcr hrn
    have h0 : L.num_rows_ ≠ 0 := by omega
    simp only [h0, if_false, CuPackedMatrix.stored]
    exact getD_packLower _ 0 hcr hrn
  · intro h0
    rw [Invert_ok, if_pos h0]

/-- Witness of C8 on the 2 x 2 factor with rows `[2]`, `[1, 4]` over the
rationals: both paths store `[1/2, -1/8, 1/4]`. -/
theorem CuTpMatrix.Invert_right_inverse_witness :
    (∀ i, i < exampleTp.num_rows_ → exampleTp.stored i i ≠ 0) ∧
    ((∃ X, CuTpMatrix.Invert true exampleTp = .ok X ∧
        X.num_rows_ = exampleTp.num_rows_ ∧
        exampleTp.toLower exampleTp.num_rows_ * X.toLower exampleTp.num_rows_ = 1) ∧
      (exampleTp.num_rows_ = 0 → CuTpMatrix.Invert true exampleTp = .ok exampleTp)) ∧
    CuTpMatrix.Invert true exampleTp = .ok ⟨2, [1 / 2, -1 / 8, 1 / 4]⟩ ∧
    CuTpMatrix.Invert false exampleTp = .ok ⟨2, [1 / 2, -1 / 8, 1 / 4]⟩ := by
  refine ⟨by decide, CuTpMatrix.Invert_right_inverse true exampleTp (by decide), ?_, ?_⟩
  · simp [CuTpMatrix.Invert, exampleTp, CuTpMatrix.CopyFromMat, cuda_take_lower, packLower,
      cublas_trsm, forwardSol, forwardSubst, CuMatrixBase.CopyFromTp, cuda_set_diag,
      CuMatrix.zero, CuPackedMatrix.stored, Finset.sum_range_succ, List.range_succ]
    norm_num
  · simp [CuTpMatrix.Invert, exampleTp, TpMatrix.Invert, packLower, forwardSol, forwardSubst,
      CuPackedMatrix.stored, Finset.sum_range_succ, List.range_succ]
    norm_num

/-! ## Backend parity of the dual-path operations -/

/-- C10 (code evaluated at the failing input): when `--utts-per-avg` is not
given, `utts_per_avg` is 500, not the 250 that the help text documents; with two
jobs and a first batch completing 250 utterances the averaging trigger does not
fire, whereas it would with the documented default. -/
theorem utts_per_avg_default_is_500 :
    utts_per_avg none = 500 ∧
    utts_per_avg none ≠ utts_per_avg_documented ∧
    averagingTrigger 2 0 250 (utts_per_avg none) = false ∧
    averagingTrigger 2 0 250 utts_per_avg_documented = true := by
  refine ⟨by decide, by decide, by decide, by decide⟩

/-! ## The addressing map of the element accessor -/

/-- C11: for every dimension `n` small enough that `r * (r+1)` does not overflow
a 32-bit signed integer for `r < n`, the addressing map of `operator()`,
`(r, c) -> r (r+1) / 2 + c`, is a bijection from the canonical pairs
`0 ≤ c ≤ r < n` onto the buffer positions `[0, n (n+1) / 2)`: every successful
access lands inside the buffer, distinct canonical pairs never share a stored
entry, and every position is addressed by a canonical pair. -/
theorem CuSpMatrix.operatorCall_bijection {K : Type} (A : CuSpMatrix K)
    (hov : ∀ r : Int, 0 ≤ r → r < A.num_rows_ → r * (r + 1) < 2 ^ 31) :
    (∀ (r c : Int) (v : CuValue), IsInt32 r → IsInt32 c → A.operatorCall r c = .ok v →
      0 ≤ v.offset ∧
      v.offset < ((A.num_rows_ * (A.num_rows_ + 1) / 2 : Nat) : Int)) ∧
    (∀ r c : Nat, c ≤ r → r < A.num_rows_ →
      A.operatorCall r c = .ok ⟨((r * (r + 1) / 2 + c : Nat) : Int)⟩) ∧
    (∀ r c r1 c1 : Nat, c ≤ r → r < A.num_rows_ → c1 ≤ r1 → r1 < A.num_rows_ →
      A.operatorCall r c = A.operatorCall r1 c1 → r = r1 ∧ c = c1) ∧
    (∀ p : Nat, p < A.num_rows_ * (A.num_rows_ + 1) / 2 →
      ∃ r c : Nat, c ≤ r ∧ r < A.num_rows_ ∧ A.operatorCall r c = .ok ⟨(p : Int)⟩) ∧
    (A.data_.length = A.num_rows_ * (A.num_rows_ + 1) / 2 →
      ∀ r c : Nat, r < A.num_rows_ → c < A.num_rows_ →
        ∃ x, A.operatorCallConst r c = .ok (some x)) := by
  have hn : (A.num_rows_ : Int) ≤ 46341 := dim_le_of_no_overflow hov
  have hcanon : ∀ r c : Nat, c ≤ r → r < A.num_rows_ →
      A.operatorCall r c = .ok ⟨((r * (r + 1) / 2 + c : Nat) : Int)⟩ := by
    intro r c hc hr
    exact operatorCall_of_offset A (elementOffset_canonical hn hc (Int.ofNat_lt.mpr hr))
  refine ⟨?_, hcanon, ?_, ?_, ?_⟩
  · intro r c v hr hc hv
    have hin : 0 ≤ r ∧ r < A.num_rows_ ∧ 0 ≤ c ∧ c < A.num_rows_ := by
      by_contra hout
      have herr := (elementOffset_error_iff (Int.ofNat_nonneg A.num_rows_)
        (by omega) hr hc).2 hout
      unfold CuSpMatrix.operatorCall at hv
      rw [herr] at hv
      cases hv
    obtain ⟨hr0, hrn, hc0, hcn⟩ := hin
    lift r to ℕ using hr0
    lift c to ℕ using hc0
    have hoff := operatorCall_of_offset A (elementOffset_nat hn hrn hcn)
    rw [hoff] at hv
    injection hv with hv
    subst hv
    have hlt : max r c * (max r c + 1) / 2 + min r c
        < A.num_rows_ * (A.num_rows_ + 1) / 2 :=
      packedIndex_lt (le_trans (min_le_left r c) (le_max_left r c))
        (max_lt (Int.ofNat_lt.mp hrn) (Int.ofNat_lt.mp hcn))
    exact ⟨Int.ofNat_nonneg _, Int.ofNat_lt.mpr hlt⟩
  · intro r c r1 c1 hc hr hc1 hr1 h
    rw [hcanon r c hc hr, hcanon r1 c1 hc1 hr1] at h
    injection h with h
    injection h with h
    exact packedIndex_inj hc hc1 (Int.ofNat_inj.mp h)
  · intro p hp
    obtain ⟨r, c, hc, hr, he⟩ := packedIndex_surj hp
    refine ⟨r, c, hc, hr, ?_⟩
    rw [hcanon r c hc hr, he]
  · intro hlen r c hr hc
    have hlt : max r c * (max r c + 1) / 2 + min r c < A.data_.length := by
      rw [hlen]
      exact packedIndex_lt (le_trans (min_le_left r c) (le_max_left r c)) (max_lt hr hc)
    refine ⟨A.data_.get ⟨_, hlt⟩, ?_⟩
    rw [operatorCallConst_of_offset A
      (elementOffset_nat hn (Int.ofNat_lt.mpr hr) (Int.ofNat_lt.mpr hc))]
    rw [List.get?_eq_get hlt]

/-- Witness of C11 on the 3 x 3 example: the six canonical pairs address the six
positions of the buffer, and position 4 is addressed by `(2, 1)`. -/
theorem CuSpMatrix.operatorCall_bijection_witness :
    (∀ r : Int, 0 ≤ r → r < exampleSp.num_rows_ → r * (r + 1) < 2 ^ 31) ∧
    (∀ r c r1 c1 : Nat, c ≤ r → r < exampleSp.num_rows_ → c1 ≤ r1 →
      r1 < exampleSp.num_rows_ →
      exampleSp.operatorCall r c = exampleSp.operatorCall r1 c1 → r = r1 ∧ c = c1) ∧
    exampleSp.operatorCall 2 1 = .ok ⟨4⟩ ∧
    exampleSp.operatorCallConst 2 1 = .ok (some 5) :=
  ⟨fun r h0 h1 => by
      have h2 : r ≤ 2 := by
        have : (exampleSp.num_rows_ : Int) = 3 := rfl
        omega
      nlinarith,
   (CuSpMatrix.operatorCall_bijection exampleSp (fun r h0 h1 => by
      have h2 : r ≤ 2 := by
        have : (exampleSp.num_rows_ : Int) = 3 := rfl
        omega
      nlinarith)).2.2.1,
   by rfl, by rfl⟩

/-! ## train-ctc-parallel: padded rows of a batch -/

/-- C12 (as amended): with `num_sequence ≥ 1` the batch-assembly loop returns a
batch of `cur_sequence_num ≤ num_sequence` utterances whose `max_frame_num` is
the maximum of their frame counts; when `cur_sequence_num * max_frame_num` fits
a 32-bit signed integer, the destination row `r*cur_sequence_num + s` of every
frame `r < frame_num_utt[s]` of every utterance `s < cur_sequence_num` lies in
`[0, cur_sequence_num * max_frame_num)`, the map `(r, s) -> r*cur_sequence_num + s`
is injective, and the padded copy succeeds with each frame in its own row and
every other row zero. -/
theorem assembleBatch_padded_rows {α : Type} (zero : α) (num_sequence : Int)
    (limitReached : Nat → Int → Bool) (stream : List (Utterance α))
    (hns : 1 ≤ num_sequence) (hns32 : num_sequence < 2 ^ 31)
    (hrows : ∀ u ∈ stream, 0 ≤ u.num_rows ∧ u.num_rows < 2 ^ 31) :
    ∃ b rest, assembleBatch num_sequence limitReached stream emptyBatch = some (b, rest) ∧
      b.cur_sequence_num = b.utts.length ∧
      b.cur_sequence_num ≤ num_sequence ∧
      (∀ f ∈ b.frame_num_utt, 0 ≤ f ∧ f ≤ b.max_frame_num) ∧
      (b.utts ≠ [] → b.max_frame_num ∈ b.frame_num_utt) ∧
      (b.cur_sequence_num * b.max_frame_num < 2 ^ 31 →
        b.paddedRows = b.cur_sequence_num * b.max_frame_num ∧
        (∀ (s : Nat) (f : Int), b.frame_num_utt[s]? = some f → ∀ r : Int, 0 ≤ r → r < f →
          destRow b.cur_sequence_num r s = r * b.cur_sequence_num + s ∧
          0 ≤ destRow b.cur_sequence_num r s ∧
          destRow b.cur_sequence_num r s < b.paddedRows) ∧
        (∀ (s s1 : Nat) (f f1 : Int), b.frame_num_utt[s]? = some f →
          b.frame_num_utt[s1]? = some f1 →
          ∀ r r1 : Int, 0 ≤ r → r < f → 0 ≤ r1 → r1 < f1 →
          destRow b.cur_sequence_num r s = destRow b.cur_sequence_num r1 s1 →
          r = r1 ∧ s = s1) ∧
        (∃ M, padBatch zero b = some M ∧ M.num_rows = b.paddedRows ∧
          (∀ (s : Nat) (u : Utterance α), b.utts[s]? = some u →
            ∀ r : Int, 0 ≤ r → r < u.num_rows →
            M.row (destRow b.cur_sequence_num r s) = u.row r) ∧
          (∀ j : Int,
            (∀ (s : Nat) (u : Utterance α), b.utts[s]? = some u →
              ∀ r : Int, 0 ≤ r → r < u.num_rows → j ≠ destRow b.cur_sequence_num r s) →
            M.row j = zero))) := by
  obtain ⟨b, rest, hass, hv, hlen⟩ :=
    assembleBatch_valid num_sequence limitReached hns hns32 stream emptyBatch
      emptyBatch_valid (by show ((0 : Nat) : Int) < num_sequence; omega) hrows
  have hcur : b.cur_sequence_num = b.utts.length := by
    unfold Batch.cur_sequence_num
    apply wrapInt32_of_isInt32
    unfold IsInt32
    omega
  refine ⟨b, rest, hass, hcur, by rw [hcur]; exact hlen, ?_, ?_, ?_⟩
  · intro f hf
    obtain ⟨u, hu, hfu⟩ := List.mem_map.mp hf
    have := hv.1 u hu
    rw [← hfu]
    exact ⟨this.1, this.2.1⟩
  · intro hne
    obtain ⟨u, hu, hum⟩ := hv.2.2 hne
    exact List.mem_map.mpr ⟨u, hu, hum⟩
  · intro hov
    have hcur0 : 0 ≤ b.cur_sequence_num := by rw [hcur]; exact Int.ofNat_nonneg _
    have hmax0 : 0 ≤ b.max_frame_num := by
      by_cases hb : b.utts = []
      · rw [hv.2.1 hb]
      · obtain ⟨u, hu, hum⟩ := hv.2.2 hb
        rw [← hum]
        exact (hv.1 u hu).1
    have hprod0 : 0 ≤ b.cur_sequence_num * b.max_frame_num := mul_nonneg hcur0 hmax0
    have hpad : b.paddedRows = b.cur_sequence_num * b.max_frame_num := by
      unfold Batch.paddedRows
      apply wrapInt32_of_isInt32
      unfold IsInt32
      omega
    have hdest : ∀ (s : Nat) (u : Utterance α), b.utts[s]? = some u →
        ∀ r : Int, 0 ≤ r → r < u.num_rows →
        destRow b.cur_sequence_num r s = r * b.cur_sequence_num + s := by
      intro s u hu r hr0 hr
      obtain ⟨hs, _, hle⟩ := Batch.utt_bounds b hv hcur hu
      exact destRow_eq (Int.ofNat_nonneg s) hs hr0 hr hle hov
    refine ⟨hpad, ?_, ?_, ?_⟩
    · intro s f hf r hr0 hr
      obtain ⟨u, hu, hfu⟩ := frame_num_utt_getElem? b hf
      subst hfu
      obtain ⟨hs, _, hle⟩ := Batch.utt_bounds b hv hcur hu
      have hb := rowIndex_lt (Int.ofNat_nonneg s) hs hr0 hr hle
      rw [hdest s u hu r hr0 hr, hpad]
      exact ⟨rfl, hb.1, hb.2⟩
    · intro s s1 f f1 hf hf1 r r1 hr0 hr hr10 hr1 heq
      obtain ⟨u, hu, hfu⟩ := frame_num_utt_getElem? b hf
      obtain ⟨u1, hu1, hfu1⟩ := frame_num_utt_getElem? b hf1
      subst hfu
      subst hfu1
      rw [hdest s u hu r hr0 hr, hdest s1 u1 hu1 r1 hr10 hr1] at heq
      obtain ⟨hs, _, _⟩ := Batch.utt_bounds b hv hcur hu
      obtain ⟨hs1, _, _⟩ := Batch.utt_bounds b hv hcur hu1
      have := rowIndex_inj (Int.ofNat_nonneg s) hs (Int.ofNat_nonneg s1) hs1 heq
      exact ⟨this.1, Int.ofNat_inj.mp this.2⟩
    · have hus : ∀ u ∈ b.utts, 0 ≤ u.num_rows ∧
          u.num_rows * b.cur_sequence_num ≤ b.cur_sequence_num * b.max_frame_num := by
        intro u hu
        have := hv.1 u hu
        refine ⟨this.1, ?_⟩
        rw [mul_comm b.cur_sequence_num b.max_frame_num]
        exact mul_le_mul_of_nonneg_right this.2.1 hcur0
      obtain ⟨M, hM, hrowsM, hset, hkeep⟩ :=
        copyUtts_ok b.cur_sequence_num (b.cur_sequence_num * b.max_frame_num) b.utts 0
          (FeatMatrix.zeros zero b.paddedRows) (by rw [hcur]; simp) hpad hov hus
      refine ⟨M, ?_, hrowsM.trans hpad.symm, ?_, ?_⟩
      · unfold padBatch
        rw [if_pos (by rw [hpad]; exact hprod0)]
        exact hM
      · intro s u hu r hr0 hr
        rw [hdest s u hu r hr0 hr]
        have := hset s u hu r hr0 hr
        rw [Nat.zero_add] at this
        exact this
      · intro j hj
        have hk := hkeep j (by
          intro s u hu r hr0 hr
          have := hj s u hu r hr0 hr
          rw [hdest s u hu r hr0 hr] at this
          rw [Nat.zero_add]
          exact this)
        rw [hk]
        rfl

/-- Witness of C12 (amended) on an archive of three utterances (2, 3 and 1
frames, the second without targets): the batch holds the frame counts `[2, 1]`
with `max_frame_num = 2`, and the padded matrix has 4 rows. -/
theorem assembleBatch_padded_rows_witness :
    ((1 : Int) ≤ 5 ∧ (5 : Int) < 2 ^ 31 ∧
      ∀ u ∈ exampleStream, 0 ≤ u.num_rows ∧ u.num_rows < 2 ^ 31) ∧
    (∃ b rest, assembleBatch 5 defaultLimitReached exampleStream emptyBatch = some (b, rest) ∧
      b.cur_sequence_num = b.utts.length ∧ b.cur_sequence_num ≤ 5) ∧
    (assembleBatch 5 defaultLimitReached exampleStream emptyBatch).map
        (fun p => (p.1.frame_num_utt, p.1.max_frame_num, p.1.paddedRows))
      = some ([2, 1], 2, 4) ∧
    destRow 2 1 0 = 2 := by
  have hrows : ∀ u ∈ exampleStream, 0 ≤ u.num_rows ∧ u.num_rows < 2 ^ 31 := by decide
  refine ⟨⟨by decide, by decide, hrows⟩, ?_, by rfl, by rfl⟩
  obtain ⟨b, rest, h1, h2, h3, _⟩ :=
    assembleBatch_padded_rows (-1 : Int) 5 defaultLimitReached exampleStream
      (by decide) (by decide) hrows
  exact ⟨b, rest, h1, h2, h3⟩

/-- Counterexample to C12 as stated (no bound on the batch): with the default
options (`num_sequence = 5`, `frame_limit = 100000`) and utterances of
1, 1, 1, 1 and 858993460 frames, the batch has `cur_sequence_num = 5` and
`max_frame_num = 858993460`; the 32-bit product `cur_sequence_num * max_frame_num`
wraps to 4, so `feat_mat_host` has 4 rows, while frame `r = 1` of utterance
`s = 4` goes to row `1*5 + 4 = 9`: the row is outside the matrix and the padded
copy does not succeed. -/
theorem assembleBatch_overflow_counterexample :
    ((1 : Int) ≤ 5 ∧ ∀ u ∈ overflowStream, 0 ≤ u.num_rows ∧ u.num_rows < 2 ^ 31) ∧
    assembleBatch 5 defaultLimitReached overflowStream emptyBatch
      = some (overflowBatch, []) ∧
    overflowBatch.frame_num_utt = [1, 1, 1, 1, 858993460] ∧
    overflowBatch.max_frame_num = 858993460 ∧
    overflowBatch.cur_sequence_num = 5 ∧
    overflowBatch.paddedRows = 4 ∧
    (overflowBatch.frame_num_utt[4]? = some 858993460 ∧ (0 : Int) ≤ 1 ∧ (1 : Int) < 858993460) ∧
    destRow overflowBatch.cur_sequence_num 1 4 = 9 ∧
    ¬ (destRow overflowBatch.cur_sequence_num 1 4 < overflowBatch.paddedRows) ∧
    padBatch (0 : Int) overflowBatch = none := by
  refine ⟨⟨by decide, by decide⟩, by rfl, by rfl, by rfl, by rfl, by rfl,
    ⟨by rfl, by decide, by decide⟩, by rfl, by decide, ?_⟩
  apply Option.eq_none_iff_forall_not_mem.mpr
  intro M hM
  have hr := (padBatch_some_range (0 : Int) overflowBatch M hM 4 (exampleUtt 858993460)
    (by rfl) 1 (by decide)).2
  revert hr
  decide

end eesen
